import Mathlib

/-!
Verification development for the WanWatcher repository.

This file shallowly embeds the analysis core of the repository
(`net_quality_report.py`, `net_traceroute_logger.py`, `net_trace_view.py`)
into Lean and proves or refutes the frozen specification claims about it.

Conventions of the embedding:
* Python floats are idealized as rationals (`ℚ`).
* Python `None` / pandas `NaN` cells are `Option` values.
* Python strings are `List Char` (for the line parsers) or `String`
  (for the route-view records).
* pandas data frames are lists of per-row structures.
-/

/-! ### net_quality_report.py : the span detector (`find_spans`) -/

/-- One row of the quality data frame as consumed by `find_spans`:
a timestamp (`row.ts`), the boolean flag column value, and the
(nullable) magnitude column value. -/
structure Sample where
  ts : ℚ
  flagged : Bool
  val : Option ℚ
  deriving Repr, DecidableEq

/-- The span dictionary built by `find_spans`: keys `start`, `end`
(here `stop`, since `end` is a Lean keyword), `max` (here `maxv`),
`samples`, and the `duration_s` key added after the main loop
(modelled as a field that the loop leaves at `0`). -/
structure Span where
  start : ℚ
  stop : ℚ
  maxv : Option ℚ
  samples : ℕ
  duration_s : ℚ := 0
  deriving Repr, DecidableEq

/-- The fresh one-sample span opened on lines 169 and 175:
`{"start": ts, "end": ts, "max": val, "samples": 1}`. -/
def newSpan (row : Sample) : Span :=
  { start := row.ts, stop := row.ts, maxv := row.val, samples := 1 }

/-- The span extension of lines 177-180: `current["end"] = ts`,
`current["samples"] += 1`, and the conditional `max` update. -/
def extendSpan (c : Span) (row : Sample) : Span :=
  { c with
    stop := row.ts
    samples := c.samples + 1
    maxv :=
      match row.val with
      | none => c.maxv
      | some v =>
        match c.maxv with
        | some m => some (max m v)
        | none => some v }

/-- One iteration of the `for row in df.itertuples()` loop of
`find_spans` (`net_quality_report.py` lines 158-180), acting on the
state `(spans, current)`.  The Python gap test is
`if max_gap and gap > max_gap`, i.e. the split happens only when
`max_gap` is truthy (nonzero) *and* the gap exceeds it. -/
def spanStep (max_gap : ℚ) (acc : List Span × Option Span) (row : Sample) :
    List Span × Option Span :=
  let (spans, current) := acc
  if !row.flagged then
    match current with
    | some c => (spans ++ [c], none)
    | none => (spans, none)
  else
    match current with
    | none => (spans, some (newSpan row))
    | some c =>
      let gap := row.ts - c.stop
      if max_gap ≠ 0 ∧ gap > max_gap then
        (spans ++ [c], some (newSpan row))
      else
        (spans, some (extendSpan c row))

/-- The main loop of `find_spans` including the trailing
`if current: spans.append(current)` (lines 155-183): returns the span
list in production order, before durations are set and before the
final severity sort. -/
def find_spans_loop (max_gap : ℚ) (rows : List Sample) : List Span :=
  let st := rows.foldl (spanStep max_gap) ([], none)
  st.1 ++ st.2.toList

/-- The duration-fixup loop of `find_spans` (lines 185-187):
`span["duration_s"] = dur if dur > 0 else (median_gap or 0)`. -/
def set_durations (median_gap : ℚ) (spans : List Span) : List Span :=
  spans.map fun s =>
    let dur := s.stop - s.start
    { s with duration_s := if dur > 0 then dur else median_gap }

/-- The sort key comparison of line 188
(`key=lambda s: (s["max"] or 0, s["duration_s"])`, `reverse=True`):
`a` precedes `b` iff `a`'s key is lexicographically ≥ `b`'s key, which
together with a stable sort models Python's stable descending sort. -/
def spanLe (a b : Span) : Bool :=
  a.maxv.getD 0 > b.maxv.getD 0 ∨
    (a.maxv.getD 0 = b.maxv.getD 0 ∧ a.duration_s ≥ b.duration_s)

/-- Stable insertion step: `a` is placed after every earlier element
whose sort key is ≥ its own, exactly as a stable descending sort
(Python `list.sort(key=..., reverse=True)`) orders it. -/
def insertSpan (a : Span) : List Span → List Span
  | [] => [a]
  | b :: bs => if spanLe b a then b :: insertSpan a bs else a :: b :: bs

/-- Stable sort by `spanLe`; since `spanLe` is a total preorder, this
produces the unique stable descending-by-key ordering, i.e. the result
of `spans.sort(key=lambda s: (s["max"] or 0, s["duration_s"]),
reverse=True)` on line 188. -/
def sortSpans (l : List Span) : List Span :=
  l.foldl (fun acc a => insertSpan a acc) []

/-- `find_spans(df, flag_col, value_col, median_gap, max_gap_mult)`
(`net_quality_report.py` lines 151-189). The data frame is the list of
rows already projected onto `(ts, flag, value)`; `median_gap = none`
models an unavailable median gap, so `max_gap = (median_gap or 0) *
max_gap_mult` becomes `Option.getD median_gap 0 * max_gap_mult`. -/
def find_spans (rows : List Sample) (median_gap : Option ℚ) (max_gap_mult : ℚ) :
    List Span :=
  let max_gap := median_gap.getD 0 * max_gap_mult
  let spans := find_spans_loop max_gap rows
  let spans := set_durations (median_gap.getD 0) spans
  sortSpans spans

/-- The pandas flag derivation of `main` (`net_quality_report.py`
lines 232-234): `df[col] >= threshold`, which is `False` whenever the
cell is missing (`NaN`). -/
def pandas_ge (v : Option ℚ) (threshold : ℚ) : Bool :=
  match v with
  | none => false
  | some x => x ≥ threshold

/-- The composition of `main`'s flag derivation with `find_spans`
(lines 232-234 and 256-259): each `(ts, value)` row is flagged by
`pandas_ge` against the metric threshold and the value column is the
metric itself. -/
def flagSamples (vals : List (ℚ × Option ℚ)) (threshold : ℚ) : List Sample :=
  vals.map fun p => { ts := p.1, flagged := pandas_ge p.2 threshold, val := p.2 }

example :
    (find_spans_loop 0
      [⟨0, true, none⟩, ⟨1, true, none⟩, ⟨2, false, none⟩,
       ⟨3, true, none⟩, ⟨4, true, none⟩, ⟨5, true, none⟩,
       ⟨6, false, none⟩]).map Span.samples = [2, 3] := by decide

example :
    (find_spans [⟨0, true, none⟩, ⟨5, true, none⟩] none 3).map Span.samples
      = [2] := by norm_num [find_spans, find_spans_loop, spanStep, newSpan, extendSpan, set_durations, sortSpans, insertSpan, spanLe]

example :
    (find_spans [⟨0, true, some 1⟩, ⟨2, true, some 7⟩, ⟨3, false, none⟩,
                 ⟨10, true, some 2⟩] (some 1) 3).map Span.samples
      = [2, 1] := by norm_num [find_spans, find_spans_loop, spanStep, newSpan, extendSpan, set_durations, sortSpans, insertSpan, spanLe]

/-! ### Invariants of the span-detector loop -/

/-- The final flush of `find_spans` (lines 182-183):
`if current: spans.append(current)`. -/
def spanFinish (st : List Span × Option Span) : List Span :=
  st.1 ++ st.2.toList

/-- Sample count carried by the open span, `0` when no span is open. -/
def curSamples : Option Span → ℕ
  | none => 0
  | some c => c.samples

/-- Timestamp `t` lies inside span `s`. -/
def inSpan (s : Span) (t : ℚ) : Prop :=
  s.start ≤ t ∧ t ≤ s.stop

/-- Strict temporal ordering between spans: `a` ends strictly before
`b` starts. -/
def spanR (a b : Span) : Prop :=
  a.stop < b.start

/-- Everything the span-detector loop guarantees about its output
`out` when started from state `(spans, cur)` with `rest` still to be
consumed. -/
structure LoopOut (spans : List Span) (cur : Option Span) (rest : List Sample)
    (out : List Span) : Prop where
  pw : out.Pairwise spanR
  wf : ∀ s ∈ out, s.start ≤ s.stop
  sum : (out.map Span.samples).sum
      = (spans.map Span.samples).sum + curSamples cur + rest.countP (·.flagged)
  cover : ∀ r ∈ rest, r.flagged = true → ∃ s, s ∈ out ∧ inSpan s r.ts
  uncover : ∀ r ∈ rest, r.flagged = false → ∀ s ∈ out, ¬ inSpan s r.ts
  curgrow : ∀ c, cur = some c → ∃ s, s ∈ out ∧ s.start = c.start ∧ c.stop ≤ s.stop
  origin : ∀ s ∈ out, s ∈ spans ∨ (∃ c, cur = some c ∧ s.start = c.start) ∨
      (∃ r, r ∈ rest ∧ r.flagged = true ∧ s.start = r.ts)
  keep : ∀ s ∈ spans, s ∈ out

@[simp] theorem newSpan_start (row : Sample) : (newSpan row).start = row.ts := rfl

@[simp] theorem newSpan_stop (row : Sample) : (newSpan row).stop = row.ts := rfl

@[simp] theorem newSpan_samples (row : Sample) : (newSpan row).samples = 1 := rfl

@[simp] theorem extendSpan_start (c : Span) (row : Sample) :
    (extendSpan c row).start = c.start := rfl

@[simp] theorem extendSpan_stop (c : Span) (row : Sample) :
    (extendSpan c row).stop = row.ts := rfl

@[simp] theorem extendSpan_samples (c : Span) (row : Sample) :
    (extendSpan c row).samples = c.samples + 1 := rfl

theorem spanLoop_inv (g : ℚ) (rest : List Sample) :
    ∀ (spans : List Span) (cur : Option Span) (lastB : ℚ),
      rest.Pairwise (fun a b => a.ts < b.ts) →
      (∀ r ∈ rest, lastB < r.ts) →
      (spans ++ cur.toList).Pairwise spanR →
      (∀ s ∈ spans ++ cur.toList, s.start ≤ s.stop) →
      (∀ s ∈ spans ++ cur.toList, s.stop ≤ lastB) →
      LoopOut spans cur rest (spanFinish (rest.foldl (spanStep g) (spans, cur))) := by
  induction rest with
  | nil =>
    intro spans cur lastB _ _ hPW hWF hBd
    show LoopOut spans cur [] (spans ++ cur.toList)
    refine ⟨hPW, hWF, ?_, by simp, by simp, ?_, ?_, ?_⟩
    · cases cur <;> simp [curSamples]
    · intro c hc
      exact ⟨c, by simp [hc], rfl, le_refl _⟩
    · intro s hs
      rcases List.mem_append.mp hs with h | h
      · exact Or.inl h
      · cases hcur : cur with
        | none => rw [hcur] at h; simp at h
        | some c =>
          rw [hcur] at h
          simp only [Option.toList_some, List.mem_singleton] at h
          exact Or.inr (Or.inl ⟨c, rfl, by rw [h]⟩)
    · intro s hs
      exact List.mem_append_left _ hs
  | cons x rest ih =>
    intro spans cur lastB hpair hgt hPW hWF hBd
    obtain ⟨hxlt, hpair'⟩ := List.pairwise_cons.mp hpair
    have hlastx : lastB < x.ts := hgt x (List.mem_cons_self _ _)
    have hstopx : ∀ s ∈ spans ++ cur.toList, s.stop < x.ts := fun s hs =>
      lt_of_le_of_lt (hBd s hs) hlastx
    rw [List.foldl_cons]
    by_cases hf : x.flagged
    · cases cur with
      | none =>
        have hstep : spanStep g (spans, none) x = (spans, some (newSpan x)) := by
          simp [spanStep, hf]
        rw [hstep]
        have hPW2 : (spans ++ (some (newSpan x)).toList).Pairwise spanR := by
          simp only [Option.toList_some]
          rw [List.pairwise_append]
          refine ⟨by simpa using hPW, by simp, ?_⟩
          intro s hs t ht
          simp only [List.mem_singleton] at ht
          subst ht
          show s.stop < (newSpan x).start
          rw [newSpan_start]
          exact hstopx s (by simpa using hs)
        have hWF2 : ∀ s ∈ spans ++ (some (newSpan x)).toList, s.start ≤ s.stop := by
          intro s hs
          rcases List.mem_append.mp hs with h | h
          · exact hWF s (by simpa using h)
          · simp only [Option.toList_some, List.mem_singleton] at h
            subst h
            exact le_refl _
        have hBd2 : ∀ s ∈ spans ++ (some (newSpan x)).toList, s.stop ≤ x.ts := by
          intro s hs
          rcases List.mem_append.mp hs with h | h
          · exact le_of_lt (hstopx s (by simpa using h))
          · simp only [Option.toList_some, List.mem_singleton] at h
            subst h
            exact le_refl _
        have hout := ih spans (some (newSpan x)) x.ts hpair' hxlt hPW2 hWF2 hBd2
        refine ⟨hout.pw, hout.wf, ?_, ?_, ?_, ?_, ?_, hout.keep⟩
        · rw [hout.sum]
          simp [curSamples, List.countP_cons, hf]
          omega
        · intro r hr hrf
          rcases List.mem_cons.mp hr with hrx | hrmem
          · obtain ⟨s, hs, hstart, hstop⟩ := hout.curgrow (newSpan x) rfl
            refine ⟨s, hs, ?_, ?_⟩
            · rw [hrx, hstart]
              exact le_refl _
            · rw [hrx]
              exact hstop
          · exact hout.cover r hrmem hrf
        · intro r hr hrf
          rcases List.mem_cons.mp hr with hrx | hrmem
          · exact absurd (hrx ▸ hrf) (by simp [hf])
          · exact hout.uncover r hrmem hrf
        · intro c hc
          simp at hc
        · intro s hs
          rcases hout.origin s hs with h | h | h
          · exact Or.inl h
          · obtain ⟨c', hc', hstart⟩ := h
            have hcc : c' = newSpan x := by simpa using hc'.symm
            exact Or.inr (Or.inr ⟨x, List.mem_cons_self _ _, hf,
              by rw [hstart, hcc, newSpan_start]⟩)
          · obtain ⟨r, hr, hrf, hstart⟩ := h
            exact Or.inr (Or.inr ⟨r, List.mem_cons_of_mem _ hr, hrf, hstart⟩)
      | some c =>
        have hcmem : c ∈ spans ++ (some c).toList := by simp
        have hcstop : c.stop < x.ts := hstopx c hcmem
        have hcstart : c.start ≤ c.stop := hWF c hcmem
        by_cases hsplit : g ≠ 0 ∧ x.ts - c.stop > g
        · have hstep : spanStep g (spans, some c) x = (spans ++ [c], some (newSpan x)) := by
            simp [spanStep, hf, hsplit]
          rw [hstep]
          have hm : ∀ s ∈ spans ++ [c], s ∈ spans ++ (some c).toList := by
            intro s hs
            simpa using hs
          have hPW2 : ((spans ++ [c]) ++ (some (newSpan x)).toList).Pairwise spanR := by
            simp only [Option.toList_some]
            rw [List.pairwise_append]
            refine ⟨by simpa using hPW, by simp, ?_⟩
            intro s hs t ht
            simp only [List.mem_singleton] at ht
            subst ht
            show s.stop < (newSpan x).start
            rw [newSpan_start]
            exact hstopx s (hm s hs)
          have hWF2 : ∀ s ∈ (spans ++ [c]) ++ (some (newSpan x)).toList,
              s.start ≤ s.stop := by
            intro s hs
            rcases List.mem_append.mp hs with h | h
            · exact hWF s (hm s h)
            · simp only [Option.toList_some, List.mem_singleton] at h
              subst h
              exact le_refl _
          have hBd2 : ∀ s ∈ (spans ++ [c]) ++ (some (newSpan x)).toList,
              s.stop ≤ x.ts := by
            intro s hs
            rcases List.mem_append.mp hs with h | h
            · exact le_of_lt (hstopx s (hm s h))
            · simp only [Option.toList_some, List.mem_singleton] at h
              subst h
              exact le_refl _
          have hout := ih (spans ++ [c]) (some (newSpan x)) x.ts hpair' hxlt hPW2 hWF2 hBd2
          refine ⟨hout.pw, hout.wf, ?_, ?_, ?_, ?_, ?_, ?_⟩
          · rw [hout.sum]
            simp [curSamples, List.countP_cons, hf]
            omega
          · intro r hr hrf
            rcases List.mem_cons.mp hr with hrx | hrmem
            · obtain ⟨s, hs, hstart, hstop⟩ := hout.curgrow (newSpan x) rfl
              refine ⟨s, hs, ?_, ?_⟩
              · rw [hrx, hstart]
                exact le_refl _
              · rw [hrx]
                exact hstop
            · exact hout.cover r hrmem hrf
          · intro r hr hrf
            rcases List.mem_cons.mp hr with hrx | hrmem
            · exact absurd (hrx ▸ hrf) (by simp [hf])
            · exact hout.uncover r hrmem hrf
          · intro c' hc'
            have hcc : c' = c := by simpa using hc'.symm
            rw [hcc]
            exact ⟨c, hout.keep c (by simp), rfl, le_refl _⟩
          · intro s hs
            rcases hout.origin s hs with h | h | h
            · rcases List.mem_append.mp h with h' | h'
              · exact Or.inl h'
              · simp only [List.mem_singleton] at h'
                exact Or.inr (Or.inl ⟨c, rfl, by rw [h']⟩)
            · obtain ⟨c', hc', hstart⟩ := h
              have hcc : c' = newSpan x := by simpa using hc'.symm
              exact Or.inr (Or.inr ⟨x, List.mem_cons_self _ _, hf,
                by rw [hstart, hcc, newSpan_start]⟩)
            · obtain ⟨r, hr, hrf, hstart⟩ := h
              exact Or.inr (Or.inr ⟨r, List.mem_cons_of_mem _ hr, hrf, hstart⟩)
          · intro s hs
            exact hout.keep s (List.mem_append_left _ hs)
        · have hstep : spanStep g (spans, some c) x = (spans, some (extendSpan c x)) := by
            simp [spanStep, hf, hsplit]
          rw [hstep]
          have hPWsplit := hPW
          simp only [Option.toList_some] at hPWsplit
          rw [List.pairwise_append] at hPWsplit
          have hPW2 : (spans ++ (some (extendSpan c x)).toList).Pairwise spanR := by
            simp only [Option.toList_some]
            rw [List.pairwise_append]
            refine ⟨hPWsplit.1, by simp, ?_⟩
            intro s hs t ht
            simp only [List.mem_singleton] at ht
            subst ht
            show s.stop < (extendSpan c x).start
            rw [extendSpan_start]
            exact hPWsplit.2.2 s hs c (by simp)
          have hWF2 : ∀ s ∈ spans ++ (some (extendSpan c x)).toList,
              s.start ≤ s.stop := by
            intro s hs
            rcases List.mem_append.mp hs with h | h
            · exact hWF s (List.mem_append_left _ h)
            · simp only [Option.toList_some, List.mem_singleton] at h
              subst h
              rw [extendSpan_start, extendSpan_stop]
              exact le_of_lt (lt_of_le_of_lt hcstart hcstop)
          have hBd2 : ∀ s ∈ spans ++ (some (extendSpan c x)).toList,
              s.stop ≤ x.ts := by
            intro s hs
            rcases List.mem_append.mp hs with h | h
            · exact le_of_lt (hstopx s (List.mem_append_left _ h))
            · simp only [Option.toList_some, List.mem_singleton] at h
              subst h
              rw [extendSpan_stop]
          have hout := ih spans (some (extendSpan c x)) x.ts hpair' hxlt hPW2 hWF2 hBd2
          refine ⟨hout.pw, hout.wf, ?_, ?_, ?_, ?_, ?_, hout.keep⟩
          · rw [hout.sum]
            simp [curSamples, List.countP_cons, hf]
            omega
          · intro r hr hrf
            rcases List.mem_cons.mp hr with hrx | hrmem
            · obtain ⟨s, hs, hstart, hstop⟩ := hout.curgrow (extendSpan c x) rfl
              refine ⟨s, hs, ?_, ?_⟩
              · rw [hrx, hstart, extendSpan_start]
                exact le_of_lt (lt_of_le_of_lt hcstart hcstop)
              · rw [hrx]
                rw [extendSpan_stop] at hstop
                exact hstop
            · exact hout.cover r hrmem hrf
          · intro r hr hrf
            rcases List.mem_cons.mp hr with hrx | hrmem
            · exact absurd (hrx ▸ hrf) (by simp [hf])
            · exact hout.uncover r hrmem hrf
          · intro c' hc'
            have hcc : c' = c := by simpa using hc'.symm
            rw [hcc]
            obtain ⟨s, hs, hstart, hstop⟩ := hout.curgrow (extendSpan c x) rfl
            refine ⟨s, hs, ?_, ?_⟩
            · rw [hstart, extendSpan_start]
            · rw [extendSpan_stop] at hstop
              exact le_trans (le_of_lt hcstop) hstop
          · intro s hs
            rcases hout.origin s hs with h | h | h
            · exact Or.inl h
            · obtain ⟨c', hc', hstart⟩ := h
              have hcc : c' = extendSpan c x := by simpa using hc'.symm
              refine Or.inr (Or.inl ⟨c, rfl, ?_⟩)
              rw [hstart, hcc, extendSpan_start]
            · obtain ⟨r, hr, hrf, hstart⟩ := h
              exact Or.inr (Or.inr ⟨r, List.mem_cons_of_mem _ hr, hrf, hstart⟩)
    · have hfx : x.flagged = false := by simpa using hf
      have hstep : spanStep g (spans, cur) x = (spans ++ cur.toList, none) := by
        cases cur <;> simp [spanStep, hfx]
      rw [hstep]
      have hPW2 : ((spans ++ cur.toList) ++ (none : Option Span).toList).Pairwise spanR := by
        simpa using hPW
      have hWF2 : ∀ s ∈ (spans ++ cur.toList) ++ (none : Option Span).toList,
          s.start ≤ s.stop := by
        intro s hs
        exact hWF s (by simpa using hs)
      have hBd2 : ∀ s ∈ (spans ++ cur.toList) ++ (none : Option Span).toList,
          s.stop ≤ x.ts := by
        intro s hs
        exact le_of_lt (hstopx s (by simpa using hs))
      have hout := ih (spans ++ cur.toList) none x.ts hpair' hxlt hPW2 hWF2 hBd2
      refine ⟨hout.pw, hout.wf, ?_, ?_, ?_, ?_, ?_, ?_⟩
      · rw [hout.sum]
        cases cur <;> simp [curSamples, List.countP_cons, hfx]
      · intro r hr hrf
        rcases List.mem_cons.mp hr with hrx | hrmem
        · exact absurd (hrx ▸ hrf) (by simp [hfx])
        · exact hout.cover r hrmem hrf
      · intro r hr hrf
        rcases List.mem_cons.mp hr with hrx | hrmem
        · intro s hs hins
          obtain ⟨hins1, hins2⟩ := hins
          rw [hrx] at hins1 hins2
          rcases hout.origin s hs with h | h | h
          · exact absurd hins2 (not_le.mpr (hstopx s h))
          · obtain ⟨c0, hc0, _⟩ := h
            simp at hc0
          · obtain ⟨r', hr', _, hstart⟩ := h
            rw [hstart] at hins1
            exact absurd hins1 (not_le.mpr (hxlt r' hr'))
        · exact hout.uncover r hrmem hrf
      · intro c hc
        have hcm : c ∈ spans ++ cur.toList := by simp [hc]
        exact ⟨c, hout.keep c hcm, rfl, le_refl _⟩
      · intro s hs
        rcases hout.origin s hs with h | h | h
        · rcases List.mem_append.mp h with h' | h'
          · exact Or.inl h'
          · cases hcur : cur with
            | none => rw [hcur] at h'; simp at h'
            | some c =>
              rw [hcur] at h'
              simp only [Option.toList_some, List.mem_singleton] at h'
              exact Or.inr (Or.inl ⟨c, rfl, by rw [h']⟩)
        · obtain ⟨c0, hc0, _⟩ := h
          simp at hc0
        · obtain ⟨r', hr', hrf', hstart⟩ := h
          exact Or.inr (Or.inr ⟨r', List.mem_cons_of_mem _ hr', hrf', hstart⟩)
      · intro s hs
        exact hout.keep s (List.mem_append_left _ hs)

theorem insertSpan_perm (a : Span) : ∀ l : List Span, (insertSpan a l).Perm (a :: l)
  | [] => List.Perm.refl _
  | b :: bs => by
    simp only [insertSpan]
    by_cases h : spanLe b a = true
    · rw [if_pos h]
      exact ((insertSpan_perm a bs).cons b).trans (List.Perm.swap a b bs)
    · rw [if_neg h]

theorem sortSpans_perm (l : List Span) : (sortSpans l).Perm l := by
  have h : ∀ (l acc : List Span),
      (l.foldl (fun acc a => insertSpan a acc) acc).Perm (acc ++ l) := by
    intro l
    induction l with
    | nil => intro acc; simp
    | cons x xs ih =>
      intro acc
      rw [List.foldl_cons]
      refine (ih (insertSpan x acc)).trans ?_
      have h1 : (insertSpan x acc ++ xs).Perm ((x :: acc) ++ xs) :=
        (insertSpan_perm x acc).append_right xs
      have h2 : ((x :: acc) ++ xs).Perm (acc ++ x :: xs) := by
        simpa using List.perm_middle.symm
      exact h1.trans h2
  simpa [sortSpans] using h l []

theorem set_durations_map_samples (mg : ℚ) (l : List Span) :
    (set_durations mg l).map Span.samples = l.map Span.samples := by
  induction l with
  | nil => rfl
  | cons s l ih =>
    simp only [set_durations, List.map_cons] at ih ⊢
    rw [ih]

theorem find_spans_sum_eq_loop (rows : List Sample) (mg : Option ℚ) (mult : ℚ) :
    ((find_spans rows mg mult).map Span.samples).sum
      = ((find_spans_loop (mg.getD 0 * mult) rows).map Span.samples).sum := by
  have hdef : find_spans rows mg mult
      = sortSpans (set_durations (mg.getD 0) (find_spans_loop (mg.getD 0 * mult) rows)) := rfl
  rw [hdef]
  rw [((sortSpans_perm _).map Span.samples).sum_eq, set_durations_map_samples]

theorem find_spans_loop_spec (g : ℚ) (rows : List Sample)
    (hchron : rows.Pairwise (fun a b => a.ts < b.ts)) :
    LoopOut [] none rows (find_spans_loop g rows) := by
  cases rows with
  | nil =>
    exact spanLoop_inv g [] [] none 0 (by simp) (by simp) (by simp) (by simp) (by simp)
  | cons x rest =>
    refine spanLoop_inv g (x :: rest) [] none (x.ts - 1) hchron ?_ (by simp) (by simp) (by simp)
    intro r hr
    rcases List.mem_cons.mp hr with rfl | hm
    · linarith
    · have := (List.pairwise_cons.mp hchron).1 r hm
      linarith

/-- **C1.** For every strictly chronologically ordered input sample
sequence and every parameter choice, the spans returned by
`find_spans` are pairwise non-overlapping in time (consecutive spans
end strictly before the next starts), are produced in increasing
order of start time before the final severity sort, every flagged
sample lies in exactly one produced span while unflagged samples lie
in none, and the sum of the `samples` counts over the returned
(sorted) spans equals the number of flagged samples in the input. -/
theorem C1_span_partition (rows : List Sample) (median_gap : Option ℚ)
    (max_gap_mult : ℚ)
    (hchron : rows.Pairwise (fun a b => a.ts < b.ts)) :
    (find_spans_loop (median_gap.getD 0 * max_gap_mult) rows).Pairwise spanR ∧
    (find_spans_loop (median_gap.getD 0 * max_gap_mult) rows).Pairwise
      (fun a b => a.start < b.start) ∧
    (∀ r ∈ rows, r.flagged = true →
      ∃! s, s ∈ find_spans_loop (median_gap.getD 0 * max_gap_mult) rows ∧ inSpan s r.ts) ∧
    (∀ r ∈ rows, r.flagged = false →
      ∀ s ∈ find_spans_loop (median_gap.getD 0 * max_gap_mult) rows, ¬ inSpan s r.ts) ∧
    ((find_spans rows median_gap max_gap_mult).map Span.samples).sum
      = rows.countP (·.flagged) := by
  have h := find_spans_loop_spec (median_gap.getD 0 * max_gap_mult) rows hchron
  have hsym : ∀ a ∈ find_spans_loop (median_gap.getD 0 * max_gap_mult) rows,
      ∀ b ∈ find_spans_loop (median_gap.getD 0 * max_gap_mult) rows,
      a ≠ b → spanR a b ∨ spanR b a := by
    have hsymR : Symmetric fun a b : Span => spanR a b ∨ spanR b a := by
      intro a b hab
      exact hab.symm
    intro a ha b hb hne
    exact (h.pw.imp fun hr => Or.inl hr).forall hsymR ha hb hne
  refine ⟨h.pw, ?_, ?_, h.uncover, ?_⟩
  · refine List.Pairwise.imp_of_mem ?_ h.pw
    intro a b ha _ hr
    exact lt_of_le_of_lt (h.wf a ha) hr
  · intro r hr hrf
    obtain ⟨s, hs, hins⟩ := h.cover r hr hrf
    refine ⟨s, ⟨hs, hins⟩, ?_⟩
    rintro t ⟨ht, hinst⟩
    by_contra hne
    obtain ⟨hi1, hi2⟩ := hins
    obtain ⟨hj1, hj2⟩ := hinst
    rcases hsym t ht s hs hne with hR | hR
    · have : t.stop < s.start := hR
      linarith
    · have : s.stop < t.start := hR
      linarith
  · rw [find_spans_sum_eq_loop]
    rw [h.sum]
    simp [curSamples]

theorem C1_span_partition_witness :
    ([⟨0, true, some 5⟩, ⟨1, false, none⟩, ⟨2, true, none⟩] : List Sample).Pairwise
      (fun a b => a.ts < b.ts) ∧
    ((find_spans [⟨0, true, some 5⟩, ⟨1, false, none⟩, ⟨2, true, none⟩]
        (some 1) 3).map Span.samples).sum
      = ([⟨0, true, some 5⟩, ⟨1, false, none⟩, ⟨2, true, none⟩] :
          List Sample).countP (·.flagged) :=
  ⟨by norm_num [List.pairwise_cons],
   (C1_span_partition [⟨0, true, some 5⟩, ⟨1, false, none⟩, ⟨2, true, none⟩]
      (some 1) 3 (by norm_num [List.pairwise_cons])).2.2.2.2⟩

/-- **C2 counterexample.** The claim states that with
`medianGapSeconds` unavailable (`maxGap = 0`) any positive gap between
consecutive flagged samples closes the span, and that the example
flags `[T,T,F,T,T,T,F]` at 1-second spacing produce exactly three
spans.  In the code the gap test is `if max_gap and gap > max_gap`, so
a zero `max_gap` is falsy and the split never fires: the example
yields exactly two spans, and two flagged samples 5 seconds apart
still land in one span of 2 samples. -/
theorem C2_maxgap_zero_counterexample :
    (find_spans
      [⟨0, true, none⟩, ⟨1, true, none⟩, ⟨2, false, none⟩,
       ⟨3, true, none⟩, ⟨4, true, none⟩, ⟨5, true, none⟩,
       ⟨6, false, none⟩] none 3).length = 2 ∧
    (find_spans [⟨0, true, none⟩, ⟨5, true, none⟩] none 3).map Span.samples
      = [2] := by
  constructor <;>
    norm_num [find_spans, find_spans_loop, spanStep, newSpan, extendSpan,
      set_durations, sortSpans, insertSpan, spanLe]

/-- The lengths of the maximal runs of consecutive flagged samples,
threading the sample count of the currently open run.  This is the
comparison definition for the amended C2: with `maxGap = 0` the span
detector's counts coincide with these run lengths. -/
def flagRunLengthsAux : List Sample → Option ℕ → List ℕ
  | [], none => []
  | [], some n => [n]
  | r :: rest, cur =>
    if r.flagged then flagRunLengthsAux rest (some (cur.getD 0 + 1))
    else
      match cur with
      | none => flagRunLengthsAux rest none
      | some n => n :: flagRunLengthsAux rest none

/-- Maximal flagged-run lengths of a sample sequence. -/
def flagRunLengths (rows : List Sample) : List ℕ :=
  flagRunLengthsAux rows none

theorem spanLoop_zero_gap (rest : List Sample) :
    ∀ (spans : List Span) (cur : Option Span),
      (spanFinish (rest.foldl (spanStep 0) (spans, cur))).map Span.samples
        = spans.map Span.samples ++ flagRunLengthsAux rest (cur.map Span.samples) := by
  induction rest with
  | nil =>
    intro spans cur
    cases cur <;> simp [spanFinish, flagRunLengthsAux]
  | cons x rest ih =>
    intro spans cur
    rw [List.foldl_cons]
    by_cases hf : x.flagged
    · cases cur with
      | none =>
        have hstep : spanStep 0 (spans, none) x = (spans, some (newSpan x)) := by
          simp [spanStep, hf]
        rw [hstep, ih]
        simp [flagRunLengthsAux, hf]
      | some c =>
        have hstep : spanStep 0 (spans, some c) x = (spans, some (extendSpan c x)) := by
          simp [spanStep, hf]
        rw [hstep, ih]
        simp [flagRunLengthsAux, hf]
    · have hfx : x.flagged = false := by simpa using hf
      cases cur with
      | none =>
        have hstep : spanStep 0 (spans, none) x = (spans, none) := by
          simp [spanStep, hfx]
        rw [hstep, ih]
        simp [flagRunLengthsAux, hfx]
      | some c =>
        have hstep : spanStep 0 (spans, some c) x = (spans ++ [c], none) := by
          simp [spanStep, hfx]
        rw [hstep, ih]
        simp [flagRunLengthsAux, hfx]

/-- **C2 (amended).** When `medianGapSeconds` is unavailable or zero,
`maxGap = 0`; since the code's gap test `max_gap and gap > max_gap`
requires a truthy (nonzero) `max_gap`, the gap split is then disabled
entirely: only a non-flagged sample closes the current span.  In
span-production order (before the final severity sort) the sample
counts of `find_spans` are exactly the lengths of the maximal runs of
consecutive flagged samples, irrespective of the time gaps inside a
run; hence the sample counts of the final `find_spans` output are a
permutation of those run lengths.  The example flags `[T,T,F,T,T,T,F]`
at 1-second spacing produce exactly two spans with sample counts 2 and
3 in production order, which the final duration-descending sort
returns as `[3, 2]`. -/
theorem C2_amended_no_gap_tolerance :
    (∀ (rows : List Sample) (median_gap : Option ℚ) (mult : ℚ),
      median_gap = none ∨ median_gap = some 0 →
      (find_spans_loop (median_gap.getD 0 * mult) rows).map Span.samples
        = flagRunLengths rows ∧
      ((find_spans rows median_gap mult).map Span.samples).Perm
        (flagRunLengths rows)) ∧
    (find_spans_loop 0
      [⟨0, true, none⟩, ⟨1, true, none⟩, ⟨2, false, none⟩,
       ⟨3, true, none⟩, ⟨4, true, none⟩, ⟨5, true, none⟩,
       ⟨6, false, none⟩]).map Span.samples = [2, 3] ∧
    (find_spans
      [⟨0, true, none⟩, ⟨1, true, none⟩, ⟨2, false, none⟩,
       ⟨3, true, none⟩, ⟨4, true, none⟩, ⟨5, true, none⟩,
       ⟨6, false, none⟩] none 3).map Span.samples = [3, 2] := by
  refine ⟨?_, by decide, ?_⟩
  · intro rows mg mult hmg
    have hg : mg.getD 0 * mult = 0 := by
      rcases hmg with rfl | rfl <;> simp
    have hloop : (find_spans_loop (mg.getD 0 * mult) rows).map Span.samples
        = flagRunLengths rows := by
      rw [hg]
      have h := spanLoop_zero_gap rows [] none
      simpa [find_spans_loop, spanFinish, flagRunLengths] using h
    refine ⟨hloop, ?_⟩
    have hdef : find_spans rows mg mult
        = sortSpans (set_durations (mg.getD 0)
            (find_spans_loop (mg.getD 0 * mult) rows)) := rfl
    rw [hdef]
    have hperm := (sortSpans_perm (set_durations (mg.getD 0)
        (find_spans_loop (mg.getD 0 * mult) rows))).map Span.samples
    rw [set_durations_map_samples, hloop] at hperm
    exact hperm
  · norm_num [find_spans, find_spans_loop, spanStep, newSpan, extendSpan,
      set_durations, sortSpans, insertSpan, spanLe]

theorem C2_amended_witness :
    ((none : Option ℚ) = none ∨ (none : Option ℚ) = some 0) ∧
    ((find_spans_loop ((none : Option ℚ).getD 0 * 3)
        [⟨0, true, none⟩, ⟨5, true, none⟩]).map Span.samples
      = flagRunLengths [⟨0, true, none⟩, ⟨5, true, none⟩] ∧
     ((find_spans [⟨0, true, none⟩, ⟨5, true, none⟩] none 3).map
        Span.samples).Perm
       (flagRunLengths [⟨0, true, none⟩, ⟨5, true, none⟩])) :=
  ⟨Or.inl rfl,
   C2_amended_no_gap_tolerance.1 [⟨0, true, none⟩, ⟨5, true, none⟩] none 3 (Or.inl rfl)⟩

theorem foldl_all_unflagged (g : ℚ) (rows : List Sample) (spans : List Span)
    (h : ∀ r ∈ rows, r.flagged = false) :
    rows.foldl (spanStep g) (spans, none) = (spans, none) := by
  induction rows generalizing spans with
  | nil => rfl
  | cons x rest ih =>
    rw [List.foldl_cons]
    have hx : x.flagged = false := h x (List.mem_cons_self _ _)
    have hstep : spanStep g (spans, none) x = (spans, none) := by
      simp [spanStep, hx]
    rw [hstep]
    exact ih spans (fun r hr => h r (List.mem_cons_of_mem _ hr))

/-- **C9.** In the quality analyzer's flag derivation
(`df[col] >= threshold`) a missing (NaN) metric value is never
flagged, and a metric column whose values are all missing yields zero
spans from `find_spans`. -/
theorem C9_missing_never_flagged :
    (∀ threshold : ℚ, pandas_ge none threshold = false) ∧
    (∀ (vals : List (ℚ × Option ℚ)) (threshold : ℚ) (mg : Option ℚ) (mult : ℚ),
      (∀ p ∈ vals, p.2 = none) →
      find_spans (flagSamples vals threshold) mg mult = []) := by
  refine ⟨fun _ => rfl, ?_⟩
  intro vals thr mg mult hmiss
  have hflags : ∀ r ∈ flagSamples vals thr, r.flagged = false := by
    intro r hr
    simp only [flagSamples, List.mem_map] at hr
    obtain ⟨p, hp, rfl⟩ := hr
    simp [hmiss p hp, pandas_ge]
  have hloop : find_spans_loop (mg.getD 0 * mult) (flagSamples vals thr) = [] := by
    have h0 := foldl_all_unflagged (mg.getD 0 * mult) (flagSamples vals thr) [] hflags
    simp [find_spans_loop, h0]
  have hdef : find_spans (flagSamples vals thr) mg mult
      = sortSpans (set_durations (mg.getD 0)
          (find_spans_loop (mg.getD 0 * mult) (flagSamples vals thr))) := rfl
  rw [hdef, hloop]
  rfl

theorem C9_missing_never_flagged_witness :
    (∀ p ∈ ([(0, none), (1, none)] : List (ℚ × Option ℚ)), p.2 = none) ∧
    find_spans (flagSamples [(0, none), (1, none)] 120) (some 1) 3 = [] :=
  ⟨by simp, C9_missing_never_flagged.2 [(0, none), (1, none)] 120 (some 1) 3 (by simp)⟩

/-! ### net_traceroute_logger.py : the hop-line parser -/

/-- The character class `\s` of Python's `re` module restricted to
ASCII (the inputs of interest are ASCII tool output). -/
def isSpaceChar (c : Char) : Bool :=
  c = ' ' ∨ c = '\t' ∨ c = '\n' ∨ c = '\r' ∨ c = '\x0b' ∨ c = '\x0c'

/-- Decimal value of a digit string. -/
def digitsVal (ds : List Char) : ℕ :=
  ds.foldl (fun n c => 10 * n + (c.toNat - 48)) 0

/-- The rational denoted by `float("<int part>.<frac part>")`
(floats idealized as rationals). -/
def ratOfParts (ipart fpart : List Char) : ℚ :=
  (digitsVal ipart : ℚ) + (digitsVal fpart : ℚ) / (10 : ℚ) ^ fpart.length

/-- Matching the RTT regex `(<)?(\d+(?:\.\d+)?)\s*ms` (case-insensitive,
`net_traceroute_logger.py` line 137) anchored at the start of `cs`:
returns the raw capture groups — the `<` flag and the integer/fraction
digit strings of the number — and the suffix after the match.  The
pattern needs no backtracking: every greedy sub-pattern is followed by
a token it cannot absorb. -/
def rttMatchAt (cs : List Char) : Option ((Bool × List Char × List Char) × List Char) :=
  let (lt, cs1) :=
    match cs with
    | '<' :: rest => (true, rest)
    | _ => (false, cs)
  let d1 := cs1.takeWhile Char.isDigit
  if d1.isEmpty then none
  else
    let r1 := cs1.dropWhile Char.isDigit
    let (frac, r2) :=
      match r1 with
      | '.' :: rest =>
        let d2 := rest.takeWhile Char.isDigit
        if d2.isEmpty then (([] : List Char), r1)
        else (d2, rest.dropWhile Char.isDigit)
      | _ => (([] : List Char), r1)
    let r3 := r2.dropWhile isSpaceChar
    match r3 with
    | m :: s :: rest2 =>
      if (m = 'm' ∨ m = 'M') ∧ (s = 's' ∨ s = 'S') then
        some ((lt, d1, frac), rest2)
      else none
    | _ => none

/-- `re.finditer` over the RTT pattern: scan left to right, emitting
non-overlapping leftmost matches and resuming after each match.  The
fuel argument (`length` at the top call) strictly dominates the number
of scan steps, since every step consumes at least one character. -/
def rttScan : ℕ → List Char → List (Bool × List Char × List Char)
  | 0, _ => []
  | _ + 1, [] => []
  | fuel + 1, c :: rest =>
    match rttMatchAt (c :: rest) with
    | some (m, after) => m :: rttScan fuel after
    | none => rttScan fuel rest

/-- The raw RTT-token matches of a line, in order of appearance. -/
def rtt_matches (cs : List Char) : List (Bool × List Char × List Char) :=
  rttScan cs.length cs

/-- All RTT-token matches of a line with the matched number read off
by `float(m.group(2))`: the flag records a `<` prefix. -/
def rtt_finditer (cs : List Char) : List (Bool × ℚ) :=
  (rtt_matches cs).map fun t => (t.1, ratOfParts t.2.1 t.2.2)

/-- `_parse_rtts(line)` (`net_traceroute_logger.py` lines 140-147):
collect the matched values, replacing a `<`-prefixed value `v` by
`max(v * 0.5, 0.1)`. -/
def _parse_rtts (line : List Char) : List ℚ :=
  (rtt_finditer line).foldl
    (fun rtts m =>
      let val := m.2
      let val := if m.1 then max (val * (1 / 2)) (1 / 10) else val
      rtts ++ [val]) []

/-- Python `str.strip()` (ASCII whitespace). -/
def pyStrip (cs : List Char) : List Char :=
  ((cs.dropWhile isSpaceChar).reverse.dropWhile isSpaceChar).reverse

/-- Python `str.split()` with no separator: split on whitespace runs,
discarding empty pieces (also models `re.split(r"\s+", s)` on an
already stripped `s`). -/
def pySplitAux : List Char → List Char → List (List Char)
  | [], acc => if acc.isEmpty then [] else [acc.reverse]
  | c :: rest, acc =>
    if isSpaceChar c then
      if acc.isEmpty then pySplitAux rest []
      else acc.reverse :: pySplitAux rest []
    else pySplitAux rest (c :: acc)

def pySplit (cs : List Char) : List (List Char) :=
  pySplitAux cs []

/-- Python `needle in hay` substring test. -/
def containsSub (needle : List Char) : List Char → Bool
  | [] => needle.isEmpty
  | c :: rest => needle.isPrefixOf (c :: rest) || containsSub needle rest

/-- `_strip_hop_prefix(prefix)` (`net_traceroute_logger.py` lines
150-155; renamed since `prefix` is a reserved token here): drop the
first whitespace-delimited token and re-join the rest with single
spaces; `None` when at most one token. -/
def _strip_hop_lead (pre : List Char) : Option (List Char) :=
  let parts := pySplit pre
  if parts.length ≤ 1 then none
  else
    let host := joinSpace parts.tail
    if host.isEmpty then none else some host
where
  joinSpace : List (List Char) → List Char
    | [] => []
    | [t] => t
    | t :: ts => t ++ ' ' :: joinSpace ts

/-- The suffix after the LAST occurrence of `" ms"` in `cs`
(`prefix.rfind(" ms")`, then `prefix[idx+3:]`), `none` when absent. -/
def lastDropMs : List Char → Option (List Char)
  | [] => none
  | c :: rest =>
    match lastDropMs rest with
    | some r => some r
    | none =>
      if [' ', 'm', 's'].isPrefixOf (c :: rest) then some ((c :: rest).drop 3)
      else none

/-- `_host_from_tail(prefix)` (lines 158-163). -/
def _host_from_tail (pre : List Char) : Option (List Char) :=
  match lastDropMs pre with
  | some tail =>
    let host := pyStrip tail
    if host.isEmpty then none else some host
  | none => _strip_hop_lead pre

/-- One attempt of the end-anchored bracket pattern
`\[(?P<ip>[^\]]+)\]\s*$` immediately after a `[`: the contents run to
the first `]`, must be nonempty, and only whitespace may follow the
`]`. -/
def bracketTry (rest : List Char) : Option (List Char) :=
  let cont := rest.takeWhile (fun c => c ≠ ']')
  match rest.dropWhile (fun c => c ≠ ']') with
  | ']' :: tail =>
    if ¬ cont.isEmpty ∧ tail.all isSpaceChar then some cont else none
  | _ => none

/-- `re.search` for the bracket pattern: leftmost `[` whose attempt
succeeds; returns the text before the match and the raw contents. -/
def bracketSearch : List Char → Option (List Char × List Char)
  | [] => none
  | c :: rest =>
    if c = '[' then
      match bracketTry rest with
      | some ip => some ([], ip)
      | none => (bracketSearch rest).map fun p => (c :: p.1, p.2)
    else (bracketSearch rest).map fun p => (c :: p.1, p.2)

/-- One attempt of the parenthesis pattern `\((?P<ip>[^)]+)\)`
immediately after a `(`: nonempty contents up to the first `)`, which
must exist; nothing is anchored after it. -/
def parenTry (rest : List Char) : Option (List Char) :=
  let cont := rest.takeWhile (fun c => c ≠ ')')
  match rest.dropWhile (fun c => c ≠ ')') with
  | ')' :: _ => if cont.isEmpty then none else some cont
  | _ => none

/-- `re.search` for the parenthesis pattern: leftmost `(` whose
attempt succeeds. -/
def parenSearch : List Char → Option (List Char × List Char)
  | [] => none
  | c :: rest =>
    if c = '(' then
      match parenTry rest with
      | some ip => some ([], ip)
      | none => (parenSearch rest).map fun p => (c :: p.1, p.2)
    else (parenSearch rest).map fun p => (c :: p.1, p.2)

/-- Modelled from the spec: the validator `ipaddress.ip_address` called
on line 181 is standard-library code outside this repository; the spec
says the fallback token must "parse as a valid IPv4/IPv6 literal".  It
is modelled on the IPv4 subset the library accepts (four dot-separated
decimal octets, 1-3 digits, no leading zeros, value ≤ 255); the
concrete inputs used below contain no IPv6 literals, where the model
and the library differ.  The C10 theorem quantifies over an arbitrary
validator, so nothing about the bracket/parenthesis paths depends on
this model. -/
def ip_address_ok (tok : List Char) : Bool :=
  let parts := tok.splitOn '.'
  parts.length = 4 ∧ parts.all fun p =>
    ¬ p.isEmpty ∧ p.length ≤ 3 ∧ p.all Char.isDigit ∧
    (p.length = 1 ∨ p.head? ≠ some '0') ∧ digitsVal p ≤ 255

/-- `_parse_host_ip(line)` (`net_traceroute_logger.py` lines 166-185),
parameterized by the external address validator used in the fallback
token scan.  Returns `(host, ip)`. -/
def _parse_host_ip (ip_ok : List Char → Bool) (line : List Char) :
    Option (List Char) × Option (List Char) :=
  match bracketSearch line with
  | some (pre, raw) => (_host_from_tail (pyStrip pre), some (pyStrip raw))
  | none =>
    match parenSearch line with
    | some (pre, raw) => (_strip_hop_lead (pyStrip pre), some (pyStrip raw))
    | none =>
      match (pySplit (pyStrip line)).find? ip_ok with
      | some tok => (none, some tok)
      | none => (none, none)

/-- `_hop_status(line, rtts)` (`net_traceroute_logger.py` lines
188-196). -/
def _hop_status (line : List Char) (rtts : List ℚ) : String :=
  let text := line.map Char.toLower
  if containsSub "timed out".toList text || containsSub "timeout".toList text then
    "timeout"
  else if line.contains '*' && rtts.isEmpty then "timeout"
  else if !rtts.isEmpty then "ok"
  else "unknown"

/-- The hop-line gate `re.match(r"^\s*(\d+)\s+", line)` of
`parse_hops` (line 202): optional leading whitespace, a digit run,
then at least one whitespace character; yields the hop number. -/
def hopLineNum (line : List Char) : Option ℕ :=
  let l1 := line.dropWhile isSpaceChar
  let ds := l1.takeWhile Char.isDigit
  if ds.isEmpty then none
  else
    match l1.dropWhile Char.isDigit with
    | c :: _ => if isSpaceChar c then some (digitsVal ds) else none
    | [] => none

/-- `str.splitlines()` restricted to `\n` separators (the only line
boundary exercised here): empty string gives no lines, a trailing
newline does not create a final empty line. -/
def splitlines (cs : List Char) : List (List Char) :=
  if cs.isEmpty then []
  else
    let parts := cs.splitOn '\n'
    if parts.getLast? = some [] then parts.dropLast else parts

/-- One parsed hop record as inserted into `trace_hops`
(`parse_hops`, lines 212-221). -/
structure HopObs where
  hop : ℕ
  hop_host : Option (List Char)
  hop_ip : Option (List Char)
  rtt_ms1 : Option ℚ
  rtt_ms2 : Option ℚ
  rtt_ms3 : Option ℚ
  rtt_avg_ms : Option ℚ
  status : String
  deriving Repr, DecidableEq

/-- `parse_hops(output)` (`net_traceroute_logger.py` lines 199-222),
parameterized by the external address validator. -/
def parse_hops (ip_ok : List Char → Bool) (output : List Char) : List HopObs :=
  (splitlines output).filterMap fun line =>
    match hopLineNum line with
    | none => none
    | some hop =>
      let rtts := _parse_rtts line
      let hi := _parse_host_ip ip_ok line
      some
        { hop := hop
          hop_host := hi.1
          hop_ip := hi.2
          rtt_ms1 := rtts.get? 0
          rtt_ms2 := rtts.get? 1
          rtt_ms3 := rtts.get? 2
          rtt_avg_ms :=
            if rtts.isEmpty then none else some (rtts.sum / (rtts.length : ℚ))
          status := _hop_status line rtts }

theorem parse_rtts_eq_map (line : List Char) :
    _parse_rtts line = (rtt_finditer line).map fun m =>
      if m.1 = true then max (m.2 * (1 / 2)) (1 / 10) else m.2 := by
  have h : ∀ (ms : List (Bool × ℚ)) (acc : List ℚ),
      ms.foldl (fun rtts m =>
        let val := m.2
        let val := if m.1 then max (val * (1 / 2)) (1 / 10) else val
        rtts ++ [val]) acc
        = acc ++ ms.map fun m => if m.1 = true then max (m.2 * (1 / 2)) (1 / 10) else m.2 := by
    intro ms
    induction ms with
    | nil => intro acc; simp
    | cons m ms ih =>
      intro acc
      rw [List.foldl_cons, ih]
      simp
  simpa [_parse_rtts] using h (rtt_finditer line) []

/-- **C8.** Every RTT token matched by the scanner (a number
immediately followed by `ms`, case-insensitively, optionally prefixed
by `<`) is recorded in order of appearance, with a `<`-prefixed value
`v` recorded as `max(v * 0.5, 0.1)` instead of the literal value:
`_parse_rtts` is exactly the order-preserving map of that
transformation over the matches, and on the concrete lines
`"<1 ms 2.5ms"` and `"<0.1ms"` it records `[0.5, 2.5]` and `[0.1]`
(the floor case). -/
theorem C8_less_than_rtt_approximation :
    (∀ line : List Char,
      _parse_rtts line = (rtt_finditer line).map fun m =>
        if m.1 = true then max (m.2 * (1 / 2)) (1 / 10) else m.2) ∧
    _parse_rtts "<1 ms 2.5ms".toList = [1 / 2, 5 / 2] ∧
    _parse_rtts "<0.1ms".toList = [1 / 10] := by
  refine ⟨parse_rtts_eq_map, ?_, ?_⟩
  · have hraw : rtt_matches "<1 ms 2.5ms".toList
        = [(true, ['1'], []), (false, ['2'], ['5'])] := by decide
    have hfind : rtt_finditer "<1 ms 2.5ms".toList = [(true, 1), (false, 5 / 2)] := by
      unfold rtt_finditer
      rw [hraw]
      norm_num [ratOfParts,
        show digitsVal ['1'] = 1 from by decide,
        show digitsVal ['2'] = 2 from by decide,
        show digitsVal ['5'] = 5 from by decide,
        show digitsVal [] = 0 from by decide]
    rw [parse_rtts_eq_map, hfind]
    norm_num [max_def]
  · have hraw : rtt_matches "<0.1ms".toList = [(true, ['0'], ['1'])] := by decide
    have hfind : rtt_finditer "<0.1ms".toList = [(true, 1 / 10)] := by
      unfold rtt_finditer
      rw [hraw]
      norm_num [ratOfParts,
        show digitsVal ['0'] = 0 from by decide,
        show digitsVal ['1'] = 1 from by decide]
    rw [parse_rtts_eq_map, hfind]
    norm_num [max_def]

/-- The claim's Timeout condition for a hop line: timeout text
(case-insensitive), or a `*` marker with no extracted RTTs. -/
def timeoutCond (line : List Char) (rtts : List ℚ) : Prop :=
  containsSub "timed out".toList (line.map Char.toLower) = true ∨
  containsSub "timeout".toList (line.map Char.toLower) = true ∨
  (line.contains '*' = true ∧ rtts = [])

/-- **C4.** The inferred hop status is `timeout` exactly when the line
contains timeout text (case-insensitively) or a `*` marker with no
extracted RTTs; otherwise `ok` exactly when at least one RTT was
extracted; otherwise `unknown`.  The line
`"7  * * *  Request timed out."` parses to status `timeout` with no
RTT samples, and `"5  10.0.0.1 [10.0.0.1]"` parses to status
`unknown` with no RTT samples. -/
theorem C4_hop_status_rule :
    (∀ (line : List Char) (rtts : List ℚ),
      (_hop_status line rtts = "timeout" ↔ timeoutCond line rtts) ∧
      (_hop_status line rtts = "ok" ↔ ¬ timeoutCond line rtts ∧ rtts ≠ []) ∧
      (_hop_status line rtts = "unknown" ↔ ¬ timeoutCond line rtts ∧ rtts = [])) ∧
    (parse_hops ip_address_ok "7  * * *  Request timed out.".toList).map
      (fun h => (h.status, h.rtt_ms1)) = [("timeout", none)] ∧
    (parse_hops ip_address_ok "5  10.0.0.1 [10.0.0.1]".toList).map
      (fun h => (h.status, h.rtt_ms1)) = [("unknown", none)] := by
  refine ⟨?_, by decide, by decide⟩
  intro line rtts
  simp only [_hop_status, timeoutCond]
  generalize containsSub "timed out".toList (List.map Char.toLower line) = A
  generalize containsSub "timeout".toList (List.map Char.toLower line) = B
  generalize line.contains '*' = C
  cases A <;> cases B <;> cases C <;> cases rtts <;> simp

/-- **C3 counterexample.** The claim asserts that a parsed hop with
non-empty `rttSamples` always has status `Ok`.  The hop line
`"3  timeout 10 ms"` extracts the RTT sample `10` yet is classified
`timeout` because the line contains timeout text: the parser emits a
hop with a present first RTT sample and status `timeout`, not `ok`. -/
theorem C3_nonempty_rtts_not_ok_counterexample :
    (parse_hops ip_address_ok "3  timeout 10 ms".toList).map
      (fun h => (h.status, h.rtt_ms1.isSome)) = [("timeout", true)] := by
  decide

/-- **C3 (amended).** For every hop observation produced by the
parser: if the first RTT sample is absent (no RTTs were extracted)
then the status is `timeout` or `unknown`; if an RTT sample is present
then the status is `ok` or `timeout` — `timeout` occurring exactly
when the line contains timeout text, so RTTs together with timeout
text yield `timeout`, not `ok`. -/
theorem C3_amended_status_invariant (ip_ok : List Char → Bool) (output : List Char)
    (h : HopObs) (hmem : h ∈ parse_hops ip_ok output) :
    (h.rtt_ms1 = none → h.status = "timeout" ∨ h.status = "unknown") ∧
    (h.rtt_ms1.isSome = true → h.status = "ok" ∨ h.status = "timeout") := by
  simp only [parse_hops, List.mem_filterMap] at hmem
  obtain ⟨line, _, hsome⟩ := hmem
  cases hnum : hopLineNum line with
  | none => rw [hnum] at hsome; simp at hsome
  | some hop =>
    rw [hnum] at hsome
    simp only [Option.some.injEq] at hsome
    subst hsome
    constructor
    · intro hnone
      simp only at hnone
      have hrtts : _parse_rtts line = [] := by
        cases hr : _parse_rtts line with
        | nil => rfl
        | cons a as => rw [hr] at hnone; simp at hnone
      show _hop_status line (_parse_rtts line) = "timeout" ∨
        _hop_status line (_parse_rtts line) = "unknown"
      rw [hrtts]
      simp only [_hop_status]
      by_cases h1 : (containsSub "timed out".toList (line.map Char.toLower) ||
          containsSub "timeout".toList (line.map Char.toLower)) = true
      · rw [if_pos h1]
        exact Or.inl rfl
      · rw [if_neg h1]
        by_cases h2 : (line.contains '*' && List.isEmpty ([] : List ℚ)) = true
        · rw [if_pos h2]
          exact Or.inl rfl
        · rw [if_neg h2]
          simp
    · intro hsome'
      simp only at hsome'
      have hne : _parse_rtts line ≠ [] := by
        intro heq
        rw [heq] at hsome'
        simp at hsome'
      show _hop_status line (_parse_rtts line) = "ok" ∨
        _hop_status line (_parse_rtts line) = "timeout"
      simp only [_hop_status]
      by_cases h1 : (containsSub "timed out".toList (line.map Char.toLower) ||
          containsSub "timeout".toList (line.map Char.toLower)) = true
      · rw [if_pos h1]
        exact Or.inr rfl
      · rw [if_neg h1]
        have hempty : (_parse_rtts line).isEmpty = false := by
          cases hr : _parse_rtts line with
          | nil => exact absurd hr hne
          | cons a as => rfl
        rw [hempty]
        simp

theorem C3_amended_status_invariant_witness :
    (⟨7, none, none, none, none, none, none, "timeout"⟩ : HopObs) ∈
      parse_hops ip_address_ok "7  * * *  Request timed out.".toList ∧
    ((⟨7, none, none, none, none, none, none, "timeout"⟩ : HopObs).rtt_ms1 = none →
      (⟨7, none, none, none, none, none, none, "timeout"⟩ : HopObs).status = "timeout" ∨
      (⟨7, none, none, none, none, none, none, "timeout"⟩ : HopObs).status = "unknown") :=
  ⟨by decide,
   (C3_amended_status_invariant ip_address_ok "7  * * *  Request timed out.".toList
      ⟨7, none, none, none, none, none, none, "timeout"⟩ (by decide)).1⟩

/-- **C10.** The bracket and parenthesis extraction paths of
`_parse_host_ip` accept the (stripped) token contents as the hop
address without consulting the address validator at all — the result
is independent of the validator, and in the parenthesis path it is
exactly the stripped contents; only the whitespace-token fallback path
demands that the returned token satisfy the validator.  Concretely,
the hop line `"5  gw (abc)  1 ms"` containing `(abc)` yields
`hop_ip = "abc"` although `abc` is no IP literal. -/
theorem C10_address_extraction_no_validation :
    (∀ (ok1 ok2 : List Char → Bool) (line : List Char),
      (bracketSearch line).isSome ∨ (parenSearch line).isSome →
      _parse_host_ip ok1 line = _parse_host_ip ok2 line) ∧
    (∀ (ok : List Char → Bool) (line pre raw : List Char),
      bracketSearch line = none → parenSearch line = some (pre, raw) →
      _parse_host_ip ok line = (_strip_hop_lead (pyStrip pre), some (pyStrip raw))) ∧
    (∀ (ok : List Char → Bool) (line ip : List Char) (host : Option (List Char)),
      bracketSearch line = none → parenSearch line = none →
      _parse_host_ip ok line = (host, some ip) → ok ip = true) ∧
    (parse_hops ip_address_ok "5  gw (abc)  1 ms".toList).map
      (fun h => (h.hop, h.hop_host, h.hop_ip))
      = [(5, some "gw".toList, some "abc".toList)] := by
  refine ⟨?_, ?_, ?_, by decide⟩
  · intro ok1 ok2 line hcase
    rcases hcase with h | h
    · obtain ⟨⟨pre, raw⟩, hp⟩ := Option.isSome_iff_exists.mp h
      simp [_parse_host_ip, hp]
    · cases hb : bracketSearch line with
      | some p => simp [_parse_host_ip, hb]
      | none =>
        obtain ⟨⟨pre, raw⟩, hp⟩ := Option.isSome_iff_exists.mp h
        simp [_parse_host_ip, hb, hp]
  · intro ok line pre raw hb hp
    simp [_parse_host_ip, hb, hp]
  · intro ok line ip host hb hp heq
    simp only [_parse_host_ip, hb, hp] at heq
    cases hf : (pySplit (pyStrip line)).find? ok with
    | some tok =>
      rw [hf] at heq
      simp only [Prod.mk.injEq, Option.some.injEq] at heq
      rw [← heq.2]
      exact List.find?_some hf
    | none =>
      rw [hf] at heq
      simp at heq

theorem C10_address_extraction_no_validation_witness :
    bracketSearch "1  8.8.8.8".toList = none ∧
    parenSearch "1  8.8.8.8".toList = none ∧
    _parse_host_ip ip_address_ok "1  8.8.8.8".toList = (none, some "8.8.8.8".toList) ∧
    ip_address_ok "8.8.8.8".toList = true :=
  ⟨by decide, by decide, by decide,
   C10_address_extraction_no_validation.2.2.1 ip_address_ok "1  8.8.8.8".toList
     "8.8.8.8".toList none (by decide) (by decide) (by decide)⟩

/-! ### net_trace_view.py : route fingerprinting -/

/-- One joined hop row of the trace data frame as consumed by the
fingerprinting pipeline (`net_trace_view.py`): SQL `NULL` / `NaN`
cells are `none`. -/
structure HopRow where
  run_id : ℕ
  hop : ℕ
  hop_host : Option String
  hop_ip : Option String
  status : Option String
  deriving Repr, DecidableEq

/-- `_hop_identity(row)` (`net_trace_view.py` lines 85-94): the
per-hop identity priority — address if present, else `"*"` on
timeout, else host name if present, else `"?"`. -/
def _hop_identity (row : HopRow) : String :=
  match row.hop_ip with
  | some ip => ip
  | none =>
    if row.status = some "timeout" then "*"
    else
      match row.hop_host with
      | some h => h
      | none => "?"

/-- The sort key of `df.sort_values(["run_id", "hop"])` (line 98):
lexicographic on `(run_id, hop)`. -/
def hopRowLe (a b : HopRow) : Bool :=
  a.run_id < b.run_id ∨ (a.run_id = b.run_id ∧ a.hop ≤ b.hop)

/-- Insertion step of the sort modelling `sort_values`. -/
def insertHopRow (a : HopRow) : List HopRow → List HopRow
  | [] => [a]
  | b :: bs => if hopRowLe b a then b :: insertHopRow a bs else a :: b :: bs

/-- The `(run_id, hop)` sort of `build_route_keys` (line 98). -/
def sortHopRows (l : List HopRow) : List HopRow :=
  l.foldl (fun acc a => insertHopRow a acc) []

/-- Grouping of consecutive equal `run_id` rows into
`(run_id, hop-identity tuple)` pairs — applied to the sorted frame
this is `ordered.groupby("run_id")["hop_id"].apply(tuple)`
(lines 99-100). -/
def groupRuns : List HopRow → List (ℕ × List String)
  | [] => []
  | r :: rest =>
    match groupRuns rest with
    | [] => [(r.run_id, [_hop_identity r])]
    | (g, ids) :: gs =>
      if r.run_id = g then (g, _hop_identity r :: ids) :: gs
      else (r.run_id, [_hop_identity r]) :: (g, ids) :: gs

/-- `build_route_keys(df)` (`net_trace_view.py` lines 97-100): the
mapping from `run_id` to that run's ordered tuple of hop
identities. -/
def build_route_keys (df : List HopRow) : List (ℕ × List String) :=
  groupRuns (sortHopRows df)

/-- Lookup of a run id in the route-key mapping (the pandas
`series[id]` access of `runs_sorted["id"].map(route_keys)`): `none`
models the `NaN` a missing run id maps to. -/
def lookupRun (rid : ℕ) : List (ℕ × List String) → Option (List String)
  | [] => none
  | (g, ids) :: gs => if rid = g then some ids else lookupRun rid gs

/-- One row of `runs_df` (`trace_runs` query): the run id and its
timestamp (ISO strings ordered like naturals). -/
structure RunRow where
  id : ℕ
  ts_utc : ℕ
  deriving Repr, DecidableEq

/-- One row of `runs_sorted` after `annotate_routes`: the original run
columns plus the `route_key` and `route_id` columns added on lines
117 and 127. -/
structure AnnRun where
  id : ℕ
  ts_utc : ℕ
  route_key : Option (List String)
  route_id : ℕ
  deriving Repr, DecidableEq

/-- Route keys as they appear in the `route_id_map`: `none` is the
`NaN` key of a run absent from the hop table. -/
abbrev RKey := Option (List String)

/-- Dictionary lookup in the insertion-ordered `route_id_map`. -/
def lookupKey (k : RKey) : List (RKey × ℕ) → Option ℕ
  | [] => none
  | (g, v) :: gs => if k = g then some v else lookupKey k gs

/-- The `route_id` assignment loop of `annotate_routes` (lines
120-125): walk the chronologically sorted keys, give a fresh
`len(map) + 1` id to each unseen key, and record every row's id. -/
def assignIds : List RKey → List (RKey × ℕ) → List ℕ × List (RKey × ℕ)
  | [], m => ([], m)
  | k :: ks, m =>
    let m' := if (lookupKey k m).isSome then m else m ++ [(k, m.length + 1)]
    let r := assignIds ks m'
    ((lookupKey k m').getD 0 :: r.1, r.2)

/-- The `ts_utc` sort of `annotate_routes` (line 118) on runs carrying
their looked-up key. -/
def runLe (a b : RunRow × RKey) : Bool :=
  a.1.ts_utc ≤ b.1.ts_utc

def insertRun (a : RunRow × RKey) : List (RunRow × RKey) → List (RunRow × RKey)
  | [] => [a]
  | b :: bs => if runLe b a then b :: insertRun a bs else a :: b :: bs

def sortRuns (l : List (RunRow × RKey)) : List (RunRow × RKey) :=
  l.foldl (fun acc a => insertRun a acc) []

/-- `annotate_routes(runs_df, route_keys)` (`net_trace_view.py` lines
115-128): attach each run's route key (missing → `none`), sort by
timestamp, assign route ids in first-sighting order, and return the
annotated runs together with the `route_id_map`. -/
def annotate_routes (runs_df : List RunRow) (route_keys : List (ℕ × List String)) :
    List AnnRun × List (RKey × ℕ) :=
  let withKey := runs_df.map fun r => (r, lookupRun r.id route_keys)
  let sorted := sortRuns withKey
  let ids := assignIds (sorted.map Prod.snd) []
  (List.zipWith
    (fun p i => { id := p.1.id, ts_utc := p.1.ts_utc, route_key := p.2, route_id := i })
    sorted ids.1,
   ids.2)

/-- One printed route-change event of `print_route_changes`:
`(ts, fromRouteId | none, toRouteId, RouteKey)`. -/
structure RouteEvent where
  ts : ℕ
  fromId : Option ℕ
  toId : ℕ
  key : RKey
  deriving Repr, DecidableEq

/-- The change-detection walk of `print_route_changes` (lines
314-322): `prev_id` starts as `None`, and a row emits an event exactly
when its `route_id` differs from `prev_id`. -/
def routeWalk : Option ℕ → List AnnRun → List RouteEvent
  | _, [] => []
  | prev, r :: rest =>
    if some r.route_id ≠ prev then
      { ts := r.ts_utc, fromId := prev, toId := r.route_id, key := r.route_key }
        :: routeWalk (some r.route_id) rest
    else routeWalk prev rest

/-- The events printed by `print_route_changes(runs_sorted,
route_id_map, ...)` (lines 297-322): nothing on an empty frame, and —
because of the early return on line 309-311 — nothing when the map
holds at most one route; otherwise the walk's events. -/
def route_change_events (runs_sorted : List AnnRun)
    (route_id_map : List (RKey × ℕ)) : List RouteEvent :=
  if runs_sorted.isEmpty then []
  else if route_id_map.length ≤ 1 then []
  else routeWalk none runs_sorted

/-- First occurrences of the keys, in order of first sighting (the
comparison definition for the id-assignment theorems). -/
def firstOccur : List RKey → List RKey
  | [] => []
  | k :: ks => k :: (firstOccur ks).filter (fun x => x ≠ k)

/-- The first position of `k` in `l` (length of `l` when absent). -/
def idxOfKey (k : RKey) : List RKey → ℕ
  | [] => 0
  | k' :: rest => if k = k' then 0 else idxOfKey k rest + 1

/-- Keys paired with positions `i, i+1, ...`. -/
def mapOfFrom (i : ℕ) : List RKey → List (RKey × ℕ)
  | [] => []
  | k :: ks => (k, i) :: mapOfFrom (i + 1) ks

/-- Keys paired with ids `1, 2, ...` in list order: the shape of the
`route_id_map` built from the first sightings. -/
def mapOf (s : List RKey) : List (RKey × ℕ) :=
  mapOfFrom 1 s

theorem mapOfFrom_lookup (k : RKey) : ∀ (s : List RKey) (i : ℕ),
    lookupKey k (mapOfFrom i s)
      = if k ∈ s then some (idxOfKey k s + i) else none := by
  intro s
  induction s with
  | nil => intro i; simp [mapOfFrom, lookupKey]
  | cons a rest ih =>
    intro i
    simp only [mapOfFrom, lookupKey]
    by_cases hka : k = a
    · subst hka
      simp [idxOfKey]
    · rw [if_neg hka, ih (i + 1)]
      by_cases hmem : k ∈ rest
      · rw [if_pos hmem, if_pos (List.mem_cons_of_mem a hmem)]
        simp only [idxOfKey, if_neg hka]
        congr 1
        omega
      · rw [if_neg hmem, if_neg (by simp [hka, hmem])]

theorem mapOf_length (s : List RKey) : (mapOf s).length = s.length := by
  show (mapOfFrom 1 s).length = s.length
  have h : ∀ (s : List RKey) (i : ℕ), (mapOfFrom i s).length = s.length := by
    intro s
    induction s with
    | nil => intro i; rfl
    | cons a rest ih => intro i; simp [mapOfFrom, ih]
  exact h s 1

theorem mapOfFrom_append_singleton (k : RKey) : ∀ (s : List RKey) (i : ℕ),
    mapOfFrom i (s ++ [k]) = mapOfFrom i s ++ [(k, s.length + i)] := by
  intro s
  induction s with
  | nil => intro i; simp [mapOfFrom]
  | cons a rest ih =>
    intro i
    show (a, i) :: mapOfFrom (i + 1) (rest ++ [k])
      = ((a, i) :: mapOfFrom (i + 1) rest) ++ [(k, rest.length + 1 + i)]
    rw [ih (i + 1)]
    have h : rest.length + (i + 1) = rest.length + 1 + i := by omega
    rw [h]
    rfl

theorem filter_ne_filter_notMem {k : RKey} {seen : List RKey} (hk : k ∈ seen) :
    ∀ l : List RKey,
      (l.filter fun x => x ≠ k).filter (fun x => x ∉ seen)
        = l.filter fun x => x ∉ seen := by
  intro l
  rw [List.filter_filter]
  refine List.filter_congr ?_
  intro x _
  by_cases hxs : x ∈ seen
  · simp [hxs]
  · have hxk : x ≠ k := fun he => hxs (he ▸ hk)
    simp [hxs, hxk]

theorem filter_notMem_append_singleton {k : RKey} {seen : List RKey} :
    ∀ l : List RKey,
      l.filter (fun x => x ∉ seen ++ [k])
        = (l.filter fun x => x ≠ k).filter (fun x => x ∉ seen) := by
  intro l
  rw [List.filter_filter]
  refine List.filter_congr ?_
  intro x _
  by_cases hxs : x ∈ seen <;> by_cases hxk : x = k <;>
    simp [hxs, hxk, List.mem_append]

theorem idxOfKey_append_of_mem {k : RKey} : ∀ {s : List RKey}, k ∈ s →
    ∀ t, idxOfKey k (s ++ t) = idxOfKey k s := by
  intro s
  induction s with
  | nil => intro h; simp at h
  | cons a rest ih =>
    intro h t
    by_cases hka : k = a
    · simp [idxOfKey, hka]
    · have hkr : k ∈ rest := by
        rcases List.mem_cons.mp h with h' | h'
        · exact absurd h' hka
        · exact h'
      simp [idxOfKey, hka, ih hkr t]

theorem idxOfKey_append_self {k : RKey} : ∀ {s : List RKey}, k ∉ s →
    ∀ t, idxOfKey k (s ++ k :: t) = s.length := by
  intro s
  induction s with
  | nil => intro _ t; simp [idxOfKey]
  | cons a rest ih =>
    intro h t
    have hka : k ≠ a := fun he => h (he ▸ List.mem_cons_self a rest)
    have hkr : k ∉ rest := fun hm => h (List.mem_cons_of_mem a hm)
    simp [idxOfKey, hka, ih hkr t]

theorem idxOfKey_inj {x y : RKey} : ∀ {l : List RKey}, x ∈ l → y ∈ l →
    idxOfKey x l = idxOfKey y l → x = y := by
  intro l
  induction l with
  | nil => intro h; simp at h
  | cons a rest ih =>
    intro hx hy heq
    by_cases hxa : x = a <;> by_cases hya : y = a
    · rw [hxa, hya]
    · rw [hxa] at heq
      simp [idxOfKey, hya] at heq
    · rw [hya] at heq
      simp [idxOfKey, hxa] at heq
    · simp only [idxOfKey, if_neg hxa, if_neg hya, Nat.add_right_cancel_iff] at heq
      have hxr : x ∈ rest := by
        rcases List.mem_cons.mp hx with h' | h'
        · exact absurd h' hxa
        · exact h'
      have hyr : y ∈ rest := by
        rcases List.mem_cons.mp hy with h' | h'
        · exact absurd h' hya
        · exact h'
      exact ih hxr hyr heq

theorem mem_firstOccur {x : RKey} : ∀ {l : List RKey}, x ∈ firstOccur l ↔ x ∈ l := by
  intro l
  induction l with
  | nil => simp [firstOccur]
  | cons k ks ih =>
    simp only [firstOccur, List.mem_cons, List.mem_filter]
    constructor
    · rintro (rfl | ⟨hmem, _⟩)
      · exact Or.inl rfl
      · exact Or.inr (ih.mp hmem)
    · rintro (rfl | hmem)
      · exact Or.inl rfl
      · by_cases hxk : x = k
        · exact Or.inl hxk
        · exact Or.inr ⟨ih.mpr hmem, by simp [hxk]⟩

theorem nodup_firstOccur : ∀ l : List RKey, (firstOccur l).Nodup := by
  intro l
  induction l with
  | nil => simp [firstOccur]
  | cons k ks ih =>
    simp only [firstOccur]
    rw [List.nodup_cons]
    refine ⟨?_, ih.filter _⟩
    intro hmem
    have := (List.mem_filter.mp hmem).2
    simp at this

theorem assignIds_spec : ∀ (ks seen : List RKey), seen.Nodup →
    assignIds ks (mapOf seen)
      = (ks.map (fun k =>
            idxOfKey k (seen ++ (firstOccur ks).filter (fun x => x ∉ seen)) + 1),
         mapOf (seen ++ (firstOccur ks).filter (fun x => x ∉ seen))) := by
  intro ks
  induction ks with
  | nil =>
    intro seen _
    simp [assignIds, firstOccur]
  | cons k ks ih =>
    intro seen hnd
    by_cases hk : k ∈ seen
    · have hlook : lookupKey k (mapOf seen) = some (idxOfKey k seen + 1) := by
        show lookupKey k (mapOfFrom 1 seen) = _
        rw [mapOfFrom_lookup k seen 1, if_pos hk]
      have hBA : (firstOccur (k :: ks)).filter (fun x => x ∉ seen)
          = (firstOccur ks).filter (fun x => x ∉ seen) := by
        simp only [firstOccur, List.filter_cons]
        rw [if_neg (by simp [hk])]
        exact filter_ne_filter_notMem hk (firstOccur ks)
      simp only [hBA]
      simp only [assignIds, hlook, Option.isSome_some, if_true]
      rw [ih seen hnd]
      simp only [List.map_cons, Option.getD_some]
      simp only [idxOfKey_append_of_mem hk]
    · have hlook : lookupKey k (mapOf seen) = none := by
        show lookupKey k (mapOfFrom 1 seen) = _
        rw [mapOfFrom_lookup k seen 1, if_neg hk]
      have hnd' : (seen ++ [k]).Nodup := by
        rw [List.nodup_append]
        refine ⟨hnd, List.nodup_singleton k, ?_⟩
        intro a ha hb
        simp only [List.mem_singleton] at hb
        subst hb
        exact hk ha
      have hB : (firstOccur (k :: ks)).filter (fun x => x ∉ seen)
          = k :: (firstOccur ks).filter (fun x => x ∉ seen ++ [k]) := by
        simp only [firstOccur, List.filter_cons]
        rw [if_pos (by simp [hk]), filter_notMem_append_singleton]
      have hlist : seen ++ (firstOccur (k :: ks)).filter (fun x => x ∉ seen)
          = (seen ++ [k]) ++ (firstOccur ks).filter (fun x => x ∉ seen ++ [k]) := by
        rw [hB]
        simp
      simp only [hlist]
      simp only [assignIds, hlook, Option.isSome_none, Bool.false_eq_true, if_false]
      have hm' : mapOf seen ++ [(k, (mapOf seen).length + 1)] = mapOf (seen ++ [k]) := by
        rw [mapOf_length]
        show _ = mapOfFrom 1 (seen ++ [k])
        rw [mapOfFrom_append_singleton k seen 1]
        rfl
      rw [hm', ih (seen ++ [k]) hnd']
      simp only [List.map_cons]
      have hklook : lookupKey k (mapOf (seen ++ [k]))
          = some (idxOfKey k (seen ++ [k]) + 1) := by
        show lookupKey k (mapOfFrom 1 (seen ++ [k])) = _
        rw [mapOfFrom_lookup k (seen ++ [k]) 1, if_pos (by simp)]
      rw [hklook]
      simp only [Option.getD_some]
      have hidx1 : idxOfKey k (seen ++ [k]) = seen.length := idxOfKey_append_self hk []
      have hidx2 : idxOfKey k ((seen ++ [k]) ++
          (firstOccur ks).filter (fun x => x ∉ seen ++ [k])) = seen.length := by
        rw [List.append_assoc, List.singleton_append]
        exact idxOfKey_append_self hk _
      simp only [hidx1, hidx2]

theorem hopRowLe_total (a b : HopRow) : hopRowLe a b = true ∨ hopRowLe b a = true := by
  simp only [hopRowLe, decide_eq_true_eq]
  omega

theorem hopRowLe_trans {a b c : HopRow} (h1 : hopRowLe a b = true)
    (h2 : hopRowLe b c = true) : hopRowLe a c = true := by
  simp only [hopRowLe, decide_eq_true_eq] at h1 h2 ⊢
  omega

theorem hopRowLe_run_id {x y : HopRow} (h : hopRowLe x y = true) :
    x.run_id ≤ y.run_id := by
  simp only [hopRowLe, decide_eq_true_eq] at h
  omega

theorem mem_insertHopRow {x a : HopRow} : ∀ {l : List HopRow},
    x ∈ insertHopRow a l ↔ x = a ∨ x ∈ l := by
  intro l
  induction l with
  | nil => simp [insertHopRow]
  | cons b bs ih =>
    simp only [insertHopRow]
    by_cases h : hopRowLe b a = true
    · rw [if_pos h]
      rw [List.mem_cons, ih, List.mem_cons]
      tauto
    · rw [if_neg h]
      exact List.mem_cons

theorem insertHopRow_pairwise {a : HopRow} : ∀ {l : List HopRow},
    l.Pairwise (fun x y => hopRowLe x y = true) →
    (insertHopRow a l).Pairwise (fun x y => hopRowLe x y = true) := by
  intro l
  induction l with
  | nil => intro _; simp [insertHopRow]
  | cons b bs ih =>
    intro h
    obtain ⟨hb, hbs⟩ := List.pairwise_cons.mp h
    simp only [insertHopRow]
    by_cases hba : hopRowLe b a = true
    · rw [if_pos hba, List.pairwise_cons]
      refine ⟨?_, ih hbs⟩
      intro y hy
      rcases mem_insertHopRow.mp hy with rfl | hy'
      · exact hba
      · exact hb y hy'
    · rw [if_neg hba, List.pairwise_cons]
      have hab : hopRowLe a b = true := (hopRowLe_total a b).resolve_right hba
      refine ⟨?_, h⟩
      intro y hy
      rcases List.mem_cons.mp hy with rfl | hy'
      · exact hab
      · exact hopRowLe_trans hab (hb y hy')

theorem sortHopRows_pairwise (l : List HopRow) :
    (sortHopRows l).Pairwise (fun x y => hopRowLe x y = true) := by
  have h : ∀ (l acc : List HopRow),
      acc.Pairwise (fun x y => hopRowLe x y = true) →
      (l.foldl (fun acc a => insertHopRow a acc) acc).Pairwise
        (fun x y => hopRowLe x y = true) := by
    intro l
    induction l with
    | nil => intro acc hacc; exact hacc
    | cons x xs ih => intro acc hacc; exact ih _ (insertHopRow_pairwise hacc)
  exact h l [] (by simp)

theorem insertHopRow_perm (a : HopRow) : ∀ l, (insertHopRow a l).Perm (a :: l)
  | [] => List.Perm.refl _
  | b :: bs => by
    simp only [insertHopRow]
    by_cases h : hopRowLe b a = true
    · rw [if_pos h]
      exact ((insertHopRow_perm a bs).cons b).trans (List.Perm.swap a b bs)
    · rw [if_neg h]

theorem sortHopRows_perm (l : List HopRow) : (sortHopRows l).Perm l := by
  have h : ∀ (l acc : List HopRow),
      (l.foldl (fun acc a => insertHopRow a acc) acc).Perm (acc ++ l) := by
    intro l
    induction l with
    | nil => intro acc; simp
    | cons x xs ih =>
      intro acc
      rw [List.foldl_cons]
      have h1 : (insertHopRow x acc ++ xs).Perm ((x :: acc) ++ xs) :=
        (insertHopRow_perm x acc).append_right xs
      have h2 : ((x :: acc) ++ xs).Perm (acc ++ x :: xs) := by
        simpa using List.perm_middle.symm
      exact (ih (insertHopRow x acc)).trans (h1.trans h2)
  simpa [sortHopRows] using h l []

theorem groupRuns_cons (r : HopRow) (rest : List HopRow) :
    groupRuns (r :: rest)
      = match groupRuns rest with
        | [] => [(r.run_id, [_hop_identity r])]
        | (g, ids) :: gs =>
          if r.run_id = g then (g, _hop_identity r :: ids) :: gs
          else (r.run_id, [_hop_identity r]) :: (g, ids) :: gs := rfl

theorem lookupRun_cons_eq {rid g : ℕ} (h : rid = g) (ids : List String)
    (gs : List (ℕ × List String)) : lookupRun rid ((g, ids) :: gs) = some ids := by
  simp [lookupRun, h]

theorem lookupRun_cons_ne {rid g : ℕ} (h : ¬ rid = g) (ids : List String)
    (gs : List (ℕ × List String)) : lookupRun rid ((g, ids) :: gs) = lookupRun rid gs := by
  simp [lookupRun, h]

theorem groupRuns_cons_head (x : HopRow) (xs : List HopRow) :
    ∃ ids gs, groupRuns (x :: xs) = (x.run_id, ids) :: gs := by
  rw [groupRuns_cons]
  cases groupRuns xs with
  | nil => exact ⟨[_hop_identity x], [], rfl⟩
  | cons p gs =>
    obtain ⟨g, ids⟩ := p
    by_cases he : x.run_id = g
    · subst he
      refine ⟨_hop_identity x :: ids, gs, ?_⟩
      simp
    · refine ⟨[_hop_identity x], (g, ids) :: gs, ?_⟩
      simp [he]

theorem groupRuns_lookup : ∀ (l : List HopRow),
    l.Pairwise (fun x y => x.run_id ≤ y.run_id) →
    ∀ rid, lookupRun rid (groupRuns l)
      = if (l.filter fun r => r.run_id = rid) = [] then none
        else some ((l.filter fun r => r.run_id = rid).map _hop_identity) := by
  intro l
  induction l with
  | nil => intro _ rid; simp [groupRuns, lookupRun]
  | cons r rest ih =>
    intro hp rid
    obtain ⟨hr, hrest⟩ := List.pairwise_cons.mp hp
    cases rest with
    | nil =>
      rw [groupRuns_cons]
      show lookupRun rid [(r.run_id, [_hop_identity r])] = _
      by_cases he : rid = r.run_id
      · rw [lookupRun_cons_eq he]
        have hfil : (([r] : List HopRow).filter fun r' => r'.run_id = rid) = [r] := by
          simp [List.filter_cons, he.symm]
        rw [hfil]
        simp
      · rw [lookupRun_cons_ne he]
        have he' : ¬(r.run_id = rid) := fun h => he h.symm
        have hfil : (([r] : List HopRow).filter fun r' => r'.run_id = rid) = [] := by
          simp [List.filter_cons, he']
        rw [hfil]
        simp [lookupRun]
    | cons y ys =>
      obtain ⟨ids, gs, hG⟩ := groupRuns_cons_head y ys
      have hIH := ih hrest
      by_cases hry : r.run_id = y.run_id
      · have hexp : groupRuns (r :: y :: ys) = (y.run_id, _hop_identity r :: ids) :: gs := by
          rw [groupRuns_cons, hG]
          simp [hry]
        rw [hexp]
        by_cases hrid : rid = y.run_id
        · rw [lookupRun_cons_eq hrid]
          have hfr : r.run_id = rid := by rw [hry, hrid]
          have hIH2 := hIH rid
          rw [hG, lookupRun_cons_eq hrid] at hIH2
          by_cases hfe : ((y :: ys).filter fun r' => r'.run_id = rid) = []
          · rw [if_pos hfe] at hIH2
            exact absurd hIH2 (by simp)
          · rw [if_neg hfe] at hIH2
            have hids : ids = ((y :: ys).filter fun r' => r'.run_id = rid).map _hop_identity :=
              Option.some.inj hIH2
            have hfil : ((r :: y :: ys).filter fun r' => r'.run_id = rid)
                = r :: ((y :: ys).filter fun r' => r'.run_id = rid) := by
              rw [List.filter_cons]
              rw [if_pos (by simp [hfr])]
            rw [hfil]
            simp [hids]
        · rw [lookupRun_cons_ne hrid]
          have hIH2 := hIH rid
          rw [hG, lookupRun_cons_ne hrid] at hIH2
          have hnr : ¬(r.run_id = rid) := by
            rw [hry]
            exact fun h => hrid h.symm
          have hfil : ((r :: y :: ys).filter fun r' => r'.run_id = rid)
              = ((y :: ys).filter fun r' => r'.run_id = rid) := by
            rw [List.filter_cons]
            rw [if_neg (by simp [hnr])]
          rw [hfil]
          exact hIH2
      · have hexp : groupRuns (r :: y :: ys)
            = (r.run_id, [_hop_identity r]) :: (y.run_id, ids) :: gs := by
          rw [groupRuns_cons, hG]
          simp [hry]
        rw [hexp]
        by_cases hrid : rid = r.run_id
        · rw [lookupRun_cons_eq hrid]
          have hlt : r.run_id ≤ y.run_id := hr y (List.mem_cons_self _ _)
          have hrlt : r.run_id < y.run_id := lt_of_le_of_ne hlt hry
          have hyge : ∀ z ∈ y :: ys, y.run_id ≤ z.run_id := by
            intro z hz
            rcases List.mem_cons.mp hz with rfl | hz'
            · exact le_refl _
            · exact (List.pairwise_cons.mp hrest).1 z hz'
          have hfil0 : ((y :: ys).filter fun r' => r'.run_id = rid) = [] := by
            rw [List.filter_eq_nil_iff]
            intro z hz
            have := hyge z hz
            simp only [decide_eq_true_eq]
            omega
          have hfil : ((r :: y :: ys).filter fun r' => r'.run_id = rid) = [r] := by
            rw [List.filter_cons]
            rw [if_pos (by simp [hrid.symm]), hfil0]
          rw [hfil]
          simp
        · rw [lookupRun_cons_ne hrid]
          have hIH2 := hIH rid
          rw [hG] at hIH2
          have hnr : ¬(r.run_id = rid) := fun h => hrid h.symm
          have hfil : ((r :: y :: ys).filter fun r' => r'.run_id = rid)
              = ((y :: ys).filter fun r' => r'.run_id = rid) := by
            rw [List.filter_cons]
            rw [if_neg (by simp [hnr])]
          rw [hfil]
          exact hIH2

theorem assignIds_nil_spec (ks : List RKey) :
    assignIds ks []
      = (ks.map (fun k => idxOfKey k (firstOccur ks) + 1), mapOf (firstOccur ks)) := by
  have hfil : (firstOccur ks).filter (fun x => x ∉ ([] : List RKey)) = firstOccur ks := by
    rw [List.filter_eq_self]
    intro a _
    simp
  have h := assignIds_spec ks [] List.nodup_nil
  rw [show (mapOf [] : List (RKey × ℕ)) = [] from rfl] at h
  rw [hfil] at h
  simpa using h

theorem annotate_zip_elem :
    ∀ (sorted : List (RunRow × RKey)) (f : RKey → ℕ),
      ∀ a ∈ List.zipWith
        (fun p i => AnnRun.mk p.1.id p.1.ts_utc p.2 i)
        sorted ((sorted.map Prod.snd).map f),
        a.route_id = f a.route_key ∧ a.route_key ∈ sorted.map Prod.snd := by
  intro sorted
  induction sorted with
  | nil => intro f a ha; simp at ha
  | cons p ps ih =>
    intro f a ha
    simp only [List.map_cons, List.zipWith_cons_cons, List.mem_cons] at ha
    rcases ha with rfl | ha'
    · exact ⟨rfl, by simp⟩
    · obtain ⟨h1, h2⟩ := ih f a ha'
      exact ⟨h1, by simp [h2]⟩

/-- The key list of the chronologically sorted runs, as threaded
through `annotate_routes`. -/
def sortedKeys (runs_df : List RunRow) (route_keys : List (ℕ × List String)) : List RKey :=
  (sortRuns (runs_df.map fun r => (r, lookupRun r.id route_keys))).map Prod.snd

theorem annotate_routes_spec (runs_df : List RunRow)
    (route_keys : List (ℕ × List String)) :
    (annotate_routes runs_df route_keys).2
      = mapOf (firstOccur (sortedKeys runs_df route_keys)) ∧
    ∀ a ∈ (annotate_routes runs_df route_keys).1,
      a.route_id = idxOfKey a.route_key (firstOccur (sortedKeys runs_df route_keys)) + 1 ∧
      a.route_key ∈ sortedKeys runs_df route_keys := by
  have hassign := assignIds_nil_spec (sortedKeys runs_df route_keys)
  constructor
  · show (assignIds (sortedKeys runs_df route_keys) []).2 = _
    rw [hassign]
  · intro a ha
    have hzip := annotate_zip_elem
      (sortRuns (runs_df.map fun r => (r, lookupRun r.id route_keys)))
      (fun k => idxOfKey k (firstOccur (sortedKeys runs_df route_keys)) + 1)
    apply hzip
    have h1 : (annotate_routes runs_df route_keys).1
        = List.zipWith (fun p i => AnnRun.mk p.1.id p.1.ts_utc p.2 i)
            (sortRuns (runs_df.map fun r => (r, lookupRun r.id route_keys)))
            (assignIds (sortedKeys runs_df route_keys) []).1 := rfl
    rw [h1, hassign] at ha
    exact ha

theorem annotate_id_iff_key (runs_df : List RunRow)
    (route_keys : List (ℕ × List String)) :
    ∀ a ∈ (annotate_routes runs_df route_keys).1,
      ∀ b ∈ (annotate_routes runs_df route_keys).1,
        (a.route_id = b.route_id ↔ a.route_key = b.route_key) := by
  intro a ha b hb
  obtain ⟨ha1, ha2⟩ := (annotate_routes_spec runs_df route_keys).2 a ha
  obtain ⟨hb1, hb2⟩ := (annotate_routes_spec runs_df route_keys).2 b hb
  constructor
  · intro hid
    rw [ha1, hb1] at hid
    have hidx : idxOfKey a.route_key (firstOccur (sortedKeys runs_df route_keys))
        = idxOfKey b.route_key (firstOccur (sortedKeys runs_df route_keys)) := by omega
    exact idxOfKey_inj (mem_firstOccur.mpr ha2) (mem_firstOccur.mpr hb2) hidx
  · intro hkey
    rw [ha1, hb1, hkey]

/-- **C5.** Route fingerprinting: (a) each hop's identity is chosen by
the priority address → `"*"` on timeout → host name → `"?"`;
(b) `build_route_keys` maps each run id with hop rows to exactly the
ordered tuple of hop identities of that run's rows in the
`(run_id, hop)`-sorted frame (a permutation of the input frame), the
rows of one run listed in ascending hop order; (c) `annotate_routes`
assigns ids by exact key equality: the `route_id_map` pairs the
distinct keys, in order of first chronological sighting, with
`1, 2, 3, ...`, every run's id is determined by its key's
first-sighting position, and two runs carry the same id iff they
carry the same key. -/
theorem C5_route_id_assignment :
    (∀ row : HopRow,
      (∀ ip, row.hop_ip = some ip → _hop_identity row = ip) ∧
      (row.hop_ip = none → row.status = some "timeout" → _hop_identity row = "*") ∧
      (∀ h, row.hop_ip = none → row.status ≠ some "timeout" → row.hop_host = some h →
        _hop_identity row = h) ∧
      (row.hop_ip = none → row.status ≠ some "timeout" → row.hop_host = none →
        _hop_identity row = "?")) ∧
    (∀ df : List HopRow, (sortHopRows df).Perm df ∧
      ∀ rid, lookupRun rid (build_route_keys df)
          = (if ((sortHopRows df).filter fun r => r.run_id = rid) = [] then none
             else some (((sortHopRows df).filter fun r => r.run_id = rid).map
               _hop_identity)) ∧
        ((sortHopRows df).filter fun r => r.run_id = rid).Pairwise
          (fun a b => a.hop ≤ b.hop)) ∧
    (∀ (runs_df : List RunRow) (route_keys : List (ℕ × List String)),
      (annotate_routes runs_df route_keys).2
        = mapOf (firstOccur (sortedKeys runs_df route_keys)) ∧
      (∀ a ∈ (annotate_routes runs_df route_keys).1,
        a.route_id
          = idxOfKey a.route_key (firstOccur (sortedKeys runs_df route_keys)) + 1) ∧
      (∀ a ∈ (annotate_routes runs_df route_keys).1,
        ∀ b ∈ (annotate_routes runs_df route_keys).1,
          (a.route_id = b.route_id ↔ a.route_key = b.route_key))) := by
  refine ⟨?_, ?_, ?_⟩
  · intro row
    refine ⟨?_, ?_, ?_, ?_⟩
    · intro ip hip
      simp [_hop_identity, hip]
    · intro hip hst
      simp [_hop_identity, hip, hst]
    · intro h hip hst hh
      simp [_hop_identity, hip, hst, hh]
    · intro hip hst hh
      simp [_hop_identity, hip, hst, hh]
  · intro df
    refine ⟨sortHopRows_perm df, ?_⟩
    intro rid
    have hpw := sortHopRows_pairwise df
    refine ⟨groupRuns_lookup (sortHopRows df) (hpw.imp fun h => hopRowLe_run_id h) rid, ?_⟩
    have hfsub : ((sortHopRows df).filter fun r => decide (r.run_id = rid)).Pairwise
        (fun x y => hopRowLe x y = true) :=
      List.Pairwise.sublist (List.filter_sublist (sortHopRows df)) hpw
    refine List.Pairwise.imp_of_mem ?_ hfsub
    intro a b ha hb hle
    have ha' := (List.mem_filter.mp ha).2
    have hb' := (List.mem_filter.mp hb).2
    simp only [decide_eq_true_eq] at ha' hb'
    simp only [hopRowLe, decide_eq_true_eq] at hle
    omega
  · intro runs_df route_keys
    obtain ⟨h1, h2⟩ := annotate_routes_spec runs_df route_keys
    exact ⟨h1, fun a ha => (h2 a ha).1, annotate_id_iff_key runs_df route_keys⟩

theorem C5_route_id_assignment_witness :
    (⟨1, 1, none, some "10.0.0.1", some "ok"⟩ : HopRow).hop_ip = some "10.0.0.1" ∧
    _hop_identity ⟨1, 1, none, some "10.0.0.1", some "ok"⟩ = "10.0.0.1" :=
  ⟨rfl, (C5_route_id_assignment.1 ⟨1, 1, none, some "10.0.0.1", some "ok"⟩).1
    "10.0.0.1" rfl⟩

/-- **C6 counterexample.** The claim demands an initial event for the
first run of every non-empty batch, but `print_route_changes` returns
early (printing "none") when the window holds at most one distinct
route: for a one-run batch the emitted event list is empty — there is
no initial event. -/
theorem C6_single_route_counterexample :
    (annotate_routes [⟨1, 0⟩]
        (build_route_keys [⟨1, 1, none, some "a", some "ok"⟩])).1 ≠ [] ∧
    route_change_events
        (annotate_routes [⟨1, 0⟩]
          (build_route_keys [⟨1, 1, none, some "a", some "ok"⟩])).1
        (annotate_routes [⟨1, 0⟩]
          (build_route_keys [⟨1, 1, none, some "a", some "ok"⟩])).2
      = [] := by
  decide

/-- The transparent form of the change walk: thread the previous run's
id and emit an event exactly when the current run's id differs from
it. -/
def changeEvents : ℕ → List AnnRun → List RouteEvent
  | _, [] => []
  | p, r :: rest =>
    if r.route_id ≠ p then
      ⟨r.ts_utc, some p, r.route_id, r.route_key⟩ :: changeEvents r.route_id rest
    else changeEvents r.route_id rest

theorem routeWalk_some (p : ℕ) : ∀ rs : List AnnRun,
    routeWalk (some p) rs = changeEvents p rs := by
  intro rs
  induction rs generalizing p with
  | nil => rfl
  | cons r rest ih =>
    simp only [routeWalk, changeEvents]
    by_cases h : r.route_id = p
    · rw [if_neg (by simp [h]), if_neg (by simp [h]), h]
      exact ih p
    · rw [if_pos (by simp [h]), if_pos (by simp [h])]
      rw [ih r.route_id]

/-- **C6 (amended).** For a non-empty chronologically sorted batch
whose `route_id_map` holds at least two distinct routes, the printed
events are an initial event for the first run (with no from-id)
followed by exactly one change event at the timestamp of every
subsequent run whose route id differs from the immediately preceding
run's id, with that preceding id as the from-id, and no other events;
when the map holds at most one route (all runs share one route) the
function returns early and emits no events at all. -/
theorem C6_amended_route_changes :
    (∀ (r0 : AnnRun) (rest : List AnnRun) (m : List (RKey × ℕ)),
      2 ≤ m.length →
      route_change_events (r0 :: rest) m
        = ⟨r0.ts_utc, none, r0.route_id, r0.route_key⟩ :: changeEvents r0.route_id rest) ∧
    (∀ (p : ℕ) (rs : List AnnRun),
      changeEvents p rs
        = ((p :: rs.map AnnRun.route_id).zip rs).filterMap fun q =>
            if q.2.route_id ≠ q.1 then
              some ⟨q.2.ts_utc, some q.1, q.2.route_id, q.2.route_key⟩
            else none) ∧
    (∀ (m : List (RKey × ℕ)) (rs : List AnnRun), m.length ≤ 1 →
      route_change_events rs m = []) := by
  refine ⟨?_, ?_, ?_⟩
  · intro r0 rest m hm
    have hnot : ¬ m.length ≤ 1 := by omega
    show (if (r0 :: rest).isEmpty = true then [] else if m.length ≤ 1 then []
      else routeWalk none (r0 :: rest)) = _
    rw [if_neg (by simp), if_neg hnot]
    show (if some r0.route_id ≠ none then
        (⟨r0.ts_utc, none, r0.route_id, r0.route_key⟩ : RouteEvent)
          :: routeWalk (some r0.route_id) rest
      else routeWalk none rest) = _
    rw [if_pos (by simp), routeWalk_some]
  · intro p rs
    induction rs generalizing p with
    | nil => rfl
    | cons r rest ih =>
      by_cases h : r.route_id = p
      · have hf : (if r.route_id ≠ p then
            some (⟨r.ts_utc, some p, r.route_id, r.route_key⟩ : RouteEvent)
          else none) = none := by
          rw [if_neg (by simp [h])]
        simp only [changeEvents, List.map_cons, List.zip_cons_cons,
          List.filterMap_cons, hf]
        rw [if_neg (by simp [h])]
        exact ih r.route_id
      · have hf : (if r.route_id ≠ p then
            some (⟨r.ts_utc, some p, r.route_id, r.route_key⟩ : RouteEvent)
          else none) = some ⟨r.ts_utc, some p, r.route_id, r.route_key⟩ := by
          rw [if_pos h]
        simp only [changeEvents, List.map_cons, List.zip_cons_cons,
          List.filterMap_cons, hf]
        rw [if_pos h]
        rw [ih r.route_id]
  · intro m rs hm
    cases rs with
    | nil => rfl
    | cons r rest =>
      simp [route_change_events, hm]

theorem C6_amended_route_changes_witness :
    2 ≤ ([(some ["a"], 1), (some ["b"], 2)] : List (RKey × ℕ)).length ∧
    route_change_events [⟨1, 0, some ["a"], 1⟩, ⟨2, 5, some ["b"], 2⟩]
        [(some ["a"], 1), (some ["b"], 2)]
      = ⟨0, none, 1, some ["a"]⟩ :: changeEvents 1 [⟨2, 5, some ["b"], 2⟩] :=
  ⟨by decide,
   C6_amended_route_changes.1 ⟨1, 0, some ["a"], 1⟩ [⟨2, 5, some ["b"], 2⟩]
     [(some ["a"], 1), (some ["b"], 2)] (by decide)⟩

/-- **C7 counterexample.** The claim says a zero-hop run produces the
*empty-tuple* RouteKey.  In the code a zero-hop run has no rows in the
joined hop frame, so `build_route_keys` yields no entry for it and the
`.map(route_keys)` lookup produces a *missing* key (`NaN`, modelled
`none`) — not the empty tuple: run 2 below gets `route_key = none`,
and `none ≠ some []`. -/
theorem C7_zero_hop_counterexample :
    lookupRun 2 (build_route_keys [⟨1, 1, none, some "a", some "ok"⟩]) = none ∧
    (annotate_routes [⟨1, 0⟩, ⟨2, 1⟩]
        (build_route_keys [⟨1, 1, none, some "a", some "ok"⟩])).1
      = [⟨1, 0, some ["a"], 1⟩, ⟨2, 1, none, 2⟩] ∧
    (none : RKey) ≠ some [] := by
  decide

/-- **C7 (amended).** A run with zero parsed hops has no rows in the
hop frame, so `build_route_keys` — which never produces the empty
tuple — has no entry for it, and `annotate_routes` gives it the
missing key `none` (pandas `NaN`), distinct from every present tuple
key including the empty tuple; the run is still tracked as its own
route: its (missing) key is in the `route_id_map` with its own
RouteId, and its id differs from that of every run with a present
key. -/
theorem C7_amended_zero_hop_route :
    (∀ (df : List HopRow) (rid : ℕ),
      lookupRun rid (build_route_keys df) ≠ some []) ∧
    (∀ (runs_df : List RunRow) (route_keys : List (ℕ × List String)),
      ∀ a ∈ (annotate_routes runs_df route_keys).1,
        lookupKey a.route_key (annotate_routes runs_df route_keys).2
          = some a.route_id) ∧
    (∀ (runs_df : List RunRow) (route_keys : List (ℕ × List String)),
      ∀ a ∈ (annotate_routes runs_df route_keys).1,
        ∀ b ∈ (annotate_routes runs_df route_keys).1,
          a.route_key = none → b.route_key ≠ none → a.route_id ≠ b.route_id) := by
  refine ⟨?_, ?_, ?_⟩
  · intro df rid hsome
    have hpw := (sortHopRows_pairwise df).imp fun h => hopRowLe_run_id h
    have hsome' : lookupRun rid (groupRuns (sortHopRows df)) = some [] := hsome
    rw [groupRuns_lookup (sortHopRows df) hpw rid] at hsome'
    by_cases hfe : ((sortHopRows df).filter fun r => r.run_id = rid) = []
    · rw [if_pos hfe] at hsome'
      exact absurd hsome' (by simp)
    · rw [if_neg hfe] at hsome'
      have hmap := Option.some.inj hsome'
      exact hfe (by simpa using hmap.symm)
  · intro runs_df route_keys a ha
    obtain ⟨hm, helem⟩ := annotate_routes_spec runs_df route_keys
    obtain ⟨hid, hkey⟩ := helem a ha
    rw [hm]
    show lookupKey a.route_key
      (mapOfFrom 1 (firstOccur (sortedKeys runs_df route_keys))) = _
    rw [mapOfFrom_lookup a.route_key (firstOccur (sortedKeys runs_df route_keys)) 1,
      if_pos (mem_firstOccur.mpr hkey), hid]
  · intro runs_df route_keys a ha b hb hanone hbnone hid
    have := (annotate_id_iff_key runs_df route_keys a ha b hb).mp hid
    rw [hanone] at this
    exact hbnone this.symm

theorem C7_amended_zero_hop_route_witness :
    (⟨2, 1, none, 2⟩ : AnnRun) ∈
      (annotate_routes [⟨1, 0⟩, ⟨2, 1⟩]
        (build_route_keys [⟨1, 1, none, some "a", some "ok"⟩])).1 ∧
    (⟨1, 0, some ["a"], 1⟩ : AnnRun) ∈
      (annotate_routes [⟨1, 0⟩, ⟨2, 1⟩]
        (build_route_keys [⟨1, 1, none, some "a", some "ok"⟩])).1 ∧
    (⟨2, 1, none, 2⟩ : AnnRun).route_key = none ∧
    (⟨1, 0, some ["a"], 1⟩ : AnnRun).route_key ≠ none ∧
    (⟨2, 1, none, 2⟩ : AnnRun).route_id ≠ (⟨1, 0, some ["a"], 1⟩ : AnnRun).route_id :=
  ⟨by decide, by decide, rfl, by decide,
   C7_amended_zero_hop_route.2.2 [⟨1, 0⟩, ⟨2, 1⟩]
     (build_route_keys [⟨1, 1, none, some "a", some "ok"⟩])
     ⟨2, 1, none, 2⟩ (by decide) ⟨1, 0, some ["a"], 1⟩ (by decide) rfl (by decide)⟩
